import Mathlib

/-!
Verification of the zkmerkle-proof-of-solvency repository against its
natural-language specification.

The Go code is shallowly embedded: machine integers (uint8/16/32/64 and
`big.Int` values that are provably nonnegative) become `Nat`, byte-string
values (32-byte roots and commitments) become `Nat`, and the Poseidon sponge
is abstracted as a parameter `sponge : List Nat -> Nat` mapping the sequence
of absorbed field elements to the final digest.  Fallible Go code (errors and
panics) is modelled with `Option` or dedicated outcome types.
-/

set_option maxRecDepth 20000

namespace ZkPoS

/-- Mirrors `utils.TierRatio` (src/src/utils/types.go).  `BoundaryValue` and
`PrecomputedValue` are nonnegative `big.Int`s, `Ratio` is a `uint8`. -/
structure TierRatio where
  BoundaryValue : Nat
  Ratio : Nat
  PrecomputedValue : Nat
  deriving Repr, DecidableEq, Inhabited

/-- Mirrors `utils.AccountAsset` (src/src/utils/types.go). -/
structure AccountAsset where
  Index : Nat
  Equity : Nat
  Debt : Nat
  Loan : Nat
  Margin : Nat
  PortfolioMargin : Nat
  deriving Repr, DecidableEq, Inhabited

/-- `utils.AccountTreeDepth` (src/src/utils/constants.go). -/
def AccountTreeDepth : Nat := 28

/-- `utils.AssetCounts` (src/src/utils/constants.go). -/
def AssetCounts : Nat := 500

/-- `utils.TierCount` (src/src/utils/constants.go). -/
def TierCount : Nat := 12

/-- `utils.PercentageMultiplier` (src/src/utils/constants.go). -/
def PercentageMultiplier : Nat := 100

/-- `utils.MaxTierBoundaryValue` (src/src/utils/constants.go), equal to 2^118. -/
def MaxTierBoundaryValue : Nat := 332306998946228968225951765070086144

/-- `utils.AssetCountsTiers`: the sorted key set of
`BatchCreateUserOpsCountsTiers` (src/src/utils/constants.go), i.e. [50, 500]. -/
def AssetCountsTiers : List Nat := [50, 500]

/-! ## C3: VerifyMerkleProof (src/src/utils/account_tree.go) -/

/-- The loop body of `utils.VerifyMerkleProof`: for `steps` iterations starting
at level `i`, combine the running `node` with `proof[i]`, putting the running
node on the left when `accountIndex & (1 << i) == 0` and on the right
otherwise. -/
def verifyMerkleLoop (sponge : List Nat → Nat) (accountIndex : Nat)
    (proof : List Nat) (node : Nat) (i : Nat) : Nat → Nat
  | 0 => node
  | steps + 1 =>
      verifyMerkleLoop sponge accountIndex proof
        (if accountIndex &&& (1 <<< i) == 0 then sponge [node, proof.getD i 0]
         else sponge [proof.getD i 0, node])
        (i + 1) steps

/-- Mirrors `utils.VerifyMerkleProof` (src/src/utils/account_tree.go): reject
unless the proof has exactly `AccountTreeDepth` siblings, then fold the leaf
up the tree and compare with `root`. -/
def VerifyMerkleProof (sponge : List Nat → Nat) (root : Nat)
    (accountIndex : Nat) (proof : List Nat) (node : Nat) : Bool :=
  if proof.length ≠ AccountTreeDepth then false
  else verifyMerkleLoop sponge accountIndex proof node 0 AccountTreeDepth == root

/-- Specification-side fold (spec.md §merkle): iterate bit-by-bit from the LSB
of `accountIndex`; at level `i`, if `(accountIndex >>> i) % 2 = 0` the running
node is hashed on the left, else on the right. -/
def merkleRootFromProof (sponge : List Nat → Nat) (accountIndex : Nat)
    (leaf : Nat) (proof : List Nat) : Nat :=
  (List.range proof.length).foldl
    (fun node i =>
      if (accountIndex >>> i) % 2 = 0 then sponge [node, proof.getD i 0]
      else sponge [proof.getD i 0, node])
    leaf

theorem and_pow_eq_zero_iff (idx i : Nat) :
    (idx &&& (1 <<< i) == 0) = ((idx >>> i) % 2 = 0 : Bool) := by
  rw [Nat.shiftLeft_eq, one_mul, Nat.and_two_pow, Nat.shiftRight_eq_div_pow,
    Nat.testBit_to_div_mod]
  rcases Nat.mod_two_eq_zero_or_one (idx / 2 ^ i) with h | h <;>
    simp [h]

theorem verifyMerkleLoop_eq_range' (sponge : List Nat → Nat) (idx : Nat)
    (proof : List Nat) : ∀ (steps i node : Nat),
    verifyMerkleLoop sponge idx proof node i steps =
      (List.range' i steps).foldl
        (fun node j =>
          if (idx >>> j) % 2 = 0 then sponge [node, proof.getD j 0]
          else sponge [proof.getD j 0, node])
        node := by
  intro steps
  induction steps with
  | zero => intro i node; rfl
  | succ k ih =>
      intro i node
      rw [List.range'_succ, List.foldl_cons, verifyMerkleLoop, ih]
      have hbit := and_pow_eq_zero_iff idx i
      by_cases h : (idx >>> i) % 2 = 0
      · rw [if_pos h]
        have : (idx &&& (1 <<< i) == 0) = true := by rw [hbit]; simp [h]
        rw [if_pos this]
      · rw [if_neg h]
        have : (idx &&& (1 <<< i) == 0) = false := by rw [hbit]; simp [h]
        simp only [this, Bool.false_eq_true, if_false]

/-- C3: `VerifyMerkleProof(root, accountIndex, proof, leaf)` returns true iff
the proof has exactly 28 siblings and folding from the LSB of `accountIndex`
upward — hashing `(node, proof[i])` when bit `i` is 0 and `(proof[i], node)`
when bit `i` is 1 — produces the root. -/
theorem verifyMerkleProof_iff (sponge : List Nat → Nat) (root idx : Nat)
    (proof : List Nat) (leaf : Nat) :
    VerifyMerkleProof sponge root idx proof leaf = true ↔
      proof.length = 28 ∧ merkleRootFromProof sponge idx leaf proof = root := by
  unfold VerifyMerkleProof merkleRootFromProof
  by_cases h : proof.length = AccountTreeDepth
  · rw [if_neg (by simp [h])]
    rw [verifyMerkleLoop_eq_range' sponge idx proof AccountTreeDepth 0 leaf]
    rw [h, ← List.range_eq_range']
    simp [AccountTreeDepth]
  · rw [if_pos h]
    simp only [Bool.false_eq_true, false_iff, not_and]
    intro hlen
    exact absurd (hlen.trans rfl) h

/-! ## C4 / C10: CalculateAssetValueViaTiersRatio (src/unnamed/part_003)

The Go function takes `collateralValue *big.Int` and, when the selected tier
index is nonzero, mutates the pointed-to value in place
(`collateralValue.Sub(collateralValue, tiers[i-1].BoundaryValue)`).  The
embedding returns a pair: first component the function result, second the
value held by the caller's `collateralValue` object after the call. -/

/-- The loop of `CalculateAssetValueViaTiersRatio`; `prev` is `tiers[i-1]`
(`none` at the first iteration). -/
def calcTiersLoop (v : Nat) : Option TierRatio → List TierRatio → Nat × Nat
  | prev, [] =>
      (match prev with
       | some p => p.PrecomputedValue
       | none => 0, v)
  | prev, t :: rest =>
      if v ≤ t.BoundaryValue then
        match prev with
        | none => (v * t.Ratio / PercentageMultiplier, v)
        | some p =>
            ((v - p.BoundaryValue) * t.Ratio / PercentageMultiplier +
               p.PrecomputedValue,
             v - p.BoundaryValue)
      else calcTiersLoop v (some t) rest

/-- Mirrors `utils.CalculateAssetValueViaTiersRatio` (src/unnamed/part_003):
first component is the returned asset value, second the final value of the
`collateralValue` argument. -/
def CalculateAssetValueViaTiersRatio (collateralValue : Nat)
    (tiersRatio : List TierRatio) : Nat × Nat :=
  if tiersRatio = [] then (0, collateralValue)
  else calcTiersLoop collateralValue none tiersRatio

theorem calcTiersLoop_select (v : Nat) :
    ∀ (tiers : List TierRatio) (prev : Option TierRatio) (i : Nat),
      i < tiers.length →
      (∀ j, j < i → (tiers.getD j default).BoundaryValue < v) →
      v ≤ (tiers.getD i default).BoundaryValue →
      calcTiersLoop v prev tiers =
        match (if i = 0 then prev else some (tiers.getD (i - 1) default)) with
        | none => (v * (tiers.getD i default).Ratio / PercentageMultiplier, v)
        | some p =>
            ((v - p.BoundaryValue) * (tiers.getD i default).Ratio /
               PercentageMultiplier + p.PrecomputedValue,
             v - p.BoundaryValue) := by
  intro tiers
  induction tiers with
  | nil => intro prev i hi; exact absurd hi (by simp)
  | cons t rest ih =>
      intro prev i hi hbefore hsel
      cases i with
      | zero =>
          simp only [List.getD_cons_zero] at hsel
          simp [calcTiersLoop, if_pos hsel]
      | succ k =>
          have ht : t.BoundaryValue < v := by
            have := hbefore 0 (Nat.succ_pos k)
            simpa using this
          have hstep : calcTiersLoop v prev (t :: rest) =
              calcTiersLoop v (some t) rest := by
            simp only [calcTiersLoop, if_neg (Nat.not_le_of_lt ht)]
          rw [hstep]
          have hk : k < rest.length := by simpa using hi
          have hbefore' : ∀ j, j < k → (rest.getD j default).BoundaryValue < v := by
            intro j hj
            have := hbefore (j + 1) (Nat.succ_lt_succ hj)
            simpa using this
          have hsel' : v ≤ (rest.getD k default).BoundaryValue := by
            simpa using hsel
          rw [ih (some t) k hk hbefore' hsel']
          cases k with
          | zero => simp
          | succ m => simp

theorem calcTiersLoop_fallthrough (v : Nat) :
    ∀ (tiers : List TierRatio) (prev : Option TierRatio),
      (∀ t ∈ tiers, t.BoundaryValue < v) →
      calcTiersLoop v prev tiers =
        (match tiers.getLast? with
         | some t => t.PrecomputedValue
         | none =>
             match prev with
             | some p => p.PrecomputedValue
             | none => 0, v) := by
  intro tiers
  induction tiers with
  | nil => intro prev _; rfl
  | cons t rest ih =>
      intro prev hall
      have ht : t.BoundaryValue < v := hall t (List.mem_cons_self t rest)
      have hstep : calcTiersLoop v prev (t :: rest) =
          calcTiersLoop v (some t) rest := by
        simp only [calcTiersLoop, if_neg (Nat.not_le_of_lt ht)]
      rw [hstep, ih (some t) (fun x hx => hall x (List.mem_cons_of_mem t hx))]
      cases rest with
      | nil => rfl
      | cons u us =>
          cases h : (u :: us).getLast? with
          | none => simp at h
          | some w => rw [List.getLast?_cons_cons, h]

theorem pairwise_boundary_lt_of_lt (tiers : List TierRatio)
    (hsort : List.Pairwise (fun a b => a.BoundaryValue < b.BoundaryValue) tiers)
    (i : Nat) (hi : i < tiers.length) (v : Nat)
    (hlow : (if i = 0 then 0 else (tiers.getD (i - 1) default).BoundaryValue) < v) :
    ∀ j, j < i → (tiers.getD j default).BoundaryValue < v := by
  intro j hj
  have hj' : j < tiers.length := Nat.lt_trans hj hi
  have hi1 : i - 1 < tiers.length := Nat.lt_of_le_of_lt (Nat.sub_le i 1) hi
  have hne : i ≠ 0 := Nat.pos_iff_ne_zero.mp (Nat.lt_of_le_of_lt (Nat.zero_le j) hj)
  rw [if_neg hne] at hlow
  rcases Nat.lt_or_ge j (i - 1) with hlt | hge
  · have hpair := (List.pairwise_iff_getElem.mp hsort) j (i - 1) hj' hi1 hlt
    have hgj : tiers.getD j default = tiers[j] := List.getD_eq_getElem tiers default hj'
    have hgi : tiers.getD (i - 1) default = tiers[i - 1] :=
      List.getD_eq_getElem tiers default hi1
    rw [hgj]
    rw [hgi] at hlow
    exact Nat.lt_trans hpair hlow
  · have : j = i - 1 := Nat.le_antisymm (Nat.le_sub_one_of_lt hj) hge
    rw [this]
    exact hlow

/-- C4: for a tier list with strictly ascending boundary values, the haircut
valuation returns `tiers[i-1].precomputed + (v - tiers[i-1].boundary) *
tiers[i].ratio / 100` for the unique `i` with
`tiers[i-1].boundary < v <= tiers[i].boundary` (with `tiers[-1]` boundary and
precomputed value both 0), returns the last tier's precomputed value when `v`
exceeds every boundary, and returns 0 on the empty tier list. -/
theorem calculateAssetValueViaTiersRatio_spec (tiers : List TierRatio) (v : Nat)
    (hsort : List.Pairwise (fun a b => a.BoundaryValue < b.BoundaryValue) tiers) :
    (∀ i, i < tiers.length →
        (if i = 0 then 0 else (tiers.getD (i - 1) default).BoundaryValue) < v →
        v ≤ (tiers.getD i default).BoundaryValue →
        (CalculateAssetValueViaTiersRatio v tiers).1 =
          (if i = 0 then 0 else (tiers.getD (i - 1) default).PrecomputedValue) +
            (v - (if i = 0 then 0 else (tiers.getD (i - 1) default).BoundaryValue)) *
              (tiers.getD i default).Ratio / PercentageMultiplier)
    ∧ ((∀ t ∈ tiers, t.BoundaryValue < v) → ∀ h : tiers ≠ [],
        (CalculateAssetValueViaTiersRatio v tiers).1 =
          (tiers.getLast h).PrecomputedValue)
    ∧ (CalculateAssetValueViaTiersRatio v []).1 = 0 := by
  refine ⟨?_, ?_, rfl⟩
  · intro i hi hlow hhigh
    have hne : tiers ≠ [] := by
      intro h; rw [h] at hi; exact absurd hi (by simp)
    have hbefore := pairwise_boundary_lt_of_lt tiers hsort i hi v hlow
    unfold CalculateAssetValueViaTiersRatio
    rw [if_neg hne, calcTiersLoop_select v tiers none i hi hbefore hhigh]
    cases i with
    | zero => simp
    | succ k =>
        simp only [Nat.succ_ne_zero, if_false, reduceCtorEq]
        rw [Nat.add_comm]
  · intro hall hne
    unfold CalculateAssetValueViaTiersRatio
    rw [if_neg hne, calcTiersLoop_fallthrough v tiers none hall]
    rw [List.getLast?_eq_getLast tiers hne]

theorem calculateAssetValueViaTiersRatio_spec_witness :
    (CalculateAssetValueViaTiersRatio 150
      [⟨100, 80, 80⟩, ⟨200, 50, 130⟩]).1 = 105 := by
  have h := (calculateAssetValueViaTiersRatio_spec
    [⟨100, 80, 80⟩, ⟨200, 50, 130⟩] 150 (by decide)).1 1
    (by decide) (by decide) (by decide)
  rw [h]; decide

/-- C10: `CalculateAssetValueViaTiersRatio` mutates its `collateralValue`
argument: when the selected tier index `i` is positive, the caller's `big.Int`
ends up holding `v - tiers[i-1].boundary`, while the returned result is still
the correct haircut of the original `v`. -/
theorem calculateAssetValueViaTiersRatio_frame (tiers : List TierRatio)
    (v i : Nat)
    (hsort : List.Pairwise (fun a b => a.BoundaryValue < b.BoundaryValue) tiers)
    (hi : i < tiers.length) (hpos : 0 < i)
    (hlow : (tiers.getD (i - 1) default).BoundaryValue < v)
    (hhigh : v ≤ (tiers.getD i default).BoundaryValue) :
    (CalculateAssetValueViaTiersRatio v tiers).2 =
        v - (tiers.getD (i - 1) default).BoundaryValue
    ∧ (CalculateAssetValueViaTiersRatio v tiers).1 =
        (tiers.getD (i - 1) default).PrecomputedValue +
          (v - (tiers.getD (i - 1) default).BoundaryValue) *
            (tiers.getD i default).Ratio / PercentageMultiplier := by
  have hne : tiers ≠ [] := by
    intro h; rw [h] at hi; exact absurd hi (by simp)
  have hnei : i ≠ 0 := Nat.pos_iff_ne_zero.mp hpos
  have hlow' : (if i = 0 then 0 else (tiers.getD (i - 1) default).BoundaryValue) < v := by
    rw [if_neg hnei]; exact hlow
  have hbefore := pairwise_boundary_lt_of_lt tiers hsort i hi v hlow'
  have hsel := calcTiersLoop_select v tiers none i hi hbefore hhigh
  rw [if_neg hnei] at hsel
  unfold CalculateAssetValueViaTiersRatio
  rw [if_neg hne, hsel]
  exact ⟨rfl, Nat.add_comm _ _⟩

theorem calculateAssetValueViaTiersRatio_frame_witness :
    (CalculateAssetValueViaTiersRatio 180
        [⟨100, 80, 80⟩, ⟨200, 50, 130⟩]).2 = 80
    ∧ (CalculateAssetValueViaTiersRatio 180
        [⟨100, 80, 80⟩, ⟨200, 50, 130⟩]).1 = 80 + (180 - 100) * 50 / 100 :=
  calculateAssetValueViaTiersRatio_frame
    [⟨100, 80, 80⟩, ⟨200, 50, 130⟩] 180 1 (by decide) (by decide)
    (by decide) (by decide) (by decide)

/-! ## C9: GetLatestProof vs GetLatestConfirmedProof (src/unnamed/part_001)

The proof table row (`Proof` struct) and the two accessors, which both issue
`ORDER BY batch_number DESC LIMIT 1`.  The database state is modelled as the
list of stored rows; the query returns a row maximising `BatchNumber` (first
such row on ties; the column has a unique index so ties do not occur), or the
gorm not-found error on an empty table. -/

/-- Mirrors the `Proof` gorm row (src/unnamed/part_001). -/
structure ProofRow where
  ProofInfo : String
  CexAssetListCommitments : String
  AccountTreeRoots : String
  BatchCommitment : String
  AssetsCount : Int
  BatchNumber : Int
  deriving Repr, DecidableEq, Inhabited

inductive DbError where
  | notFound
  | sqlOperation
  deriving Repr, DecidableEq

/-- One step of `ORDER BY batch_number DESC LIMIT 1`: keep the row with the
larger batch number. -/
def latestStep (acc : Option ProofRow) (r : ProofRow) : Option ProofRow :=
  match acc with
  | none => some r
  | some b => if b.BatchNumber < r.BatchNumber then some r else some b

def latestByBatchNumber (rows : List ProofRow) : Option ProofRow :=
  rows.foldl latestStep none

/-- Mirrors `defaultProofModel.GetLatestProof` (src/unnamed/part_001). -/
def GetLatestProof (rows : List ProofRow) : Except DbError ProofRow :=
  match latestByBatchNumber rows with
  | none => .error .notFound
  | some r => .ok r

/-- Mirrors `defaultProofModel.GetLatestConfirmedProof`
(src/unnamed/part_001); its body is verbatim that of `GetLatestProof`. -/
def GetLatestConfirmedProof (rows : List ProofRow) : Except DbError ProofRow :=
  match latestByBatchNumber rows with
  | none => .error .notFound
  | some r => .ok r

theorem foldl_latestStep_spec :
    ∀ (l : List ProofRow) (b : ProofRow),
      ∃ m, l.foldl latestStep (some b) = some m ∧ (m = b ∨ m ∈ l) ∧
        b.BatchNumber ≤ m.BatchNumber ∧
        ∀ x ∈ l, x.BatchNumber ≤ m.BatchNumber := by
  intro l
  induction l with
  | nil => intro b; exact ⟨b, rfl, Or.inl rfl, le_refl _, by simp⟩
  | cons x xs ih =>
      intro b
      by_cases h : b.BatchNumber < x.BatchNumber
      · obtain ⟨m, hm, hmem, hle, hall⟩ := ih x
        refine ⟨m, ?_, ?_, ?_, ?_⟩
        · simpa [latestStep, h] using hm
        · rcases hmem with h' | h'
          · exact Or.inr (h' ▸ List.mem_cons_self x xs)
          · exact Or.inr (List.mem_cons_of_mem x h')
        · exact le_of_lt (lt_of_lt_of_le h hle)
        · intro y hy
          rcases List.mem_cons.mp hy with h' | h'
          · exact h' ▸ hle
          · exact hall y h'
      · obtain ⟨m, hm, hmem, hle, hall⟩ := ih b
        refine ⟨m, ?_, ?_, hle, ?_⟩
        · simpa [latestStep, h] using hm
        · rcases hmem with h' | h'
          · exact Or.inl h'
          · exact Or.inr (List.mem_cons_of_mem x h')
        · intro y hy
          rcases List.mem_cons.mp hy with h' | h'
          · exact h' ▸ le_trans (le_of_not_lt h) hle
          · exact hall y h'

theorem foldl_latestStep_map (f : ProofRow → ProofRow)
    (hf : ∀ x, (f x).BatchNumber = x.BatchNumber) :
    ∀ (l : List ProofRow) (acc : Option ProofRow),
      (l.map f).foldl latestStep (acc.map f) =
        (l.foldl latestStep acc).map f := by
  intro l
  induction l with
  | nil => intro acc; rfl
  | cons x xs ih =>
      intro acc
      have hstep : latestStep (acc.map f) (f x) = (latestStep acc x).map f := by
        cases acc with
        | none => rfl
        | some b =>
            show (if (f b).BatchNumber < (f x).BatchNumber
                then some (f x) else some (f b)) =
              Option.map f
                (if b.BatchNumber < x.BatchNumber then some x else some b)
            rw [hf b, hf x]
            by_cases h : b.BatchNumber < x.BatchNumber <;> simp [h]
      simp only [List.map_cons, List.foldl_cons, hstep]
      exact ih (latestStep acc x)

/-- C9: `GetLatestConfirmedProof` is extensionally identical to
`GetLatestProof`: both return a stored row with the largest batch number,
return the not-found error exactly on an empty table, and apply no filter on
any column other than `batch_number`. -/
theorem getLatestConfirmedProof_spec (rows : List ProofRow) :
    GetLatestConfirmedProof rows = GetLatestProof rows
    ∧ (GetLatestProof rows = .error .notFound ↔ rows = [])
    ∧ (∀ r, GetLatestProof rows = .ok r →
        r ∈ rows ∧ ∀ x ∈ rows, x.BatchNumber ≤ r.BatchNumber)
    ∧ (∀ f : ProofRow → ProofRow, (∀ x, (f x).BatchNumber = x.BatchNumber) →
        GetLatestProof (rows.map f) = Except.map f (GetLatestProof rows)) := by
  refine ⟨rfl, ?_, ?_, ?_⟩
  · cases rows with
    | nil => simp [GetLatestProof, latestByBatchNumber]
    | cons x xs =>
        obtain ⟨m, hm, _, _, _⟩ := foldl_latestStep_spec xs x
        have : latestByBatchNumber (x :: xs) = some m := by
          simpa [latestByBatchNumber, latestStep] using hm
        simp [GetLatestProof, this]
  · intro r hr
    cases rows with
    | nil => exact absurd hr (by simp [GetLatestProof, latestByBatchNumber])
    | cons x xs =>
        obtain ⟨m, hm, hmem, hle, hall⟩ := foldl_latestStep_spec xs x
        have hlat : latestByBatchNumber (x :: xs) = some m := by
          simpa [latestByBatchNumber, latestStep] using hm
        have hrm : r = m := by
          simp only [GetLatestProof, hlat] at hr
          exact (Except.ok.injEq _ _ ▸ hr).symm ▸ rfl
        subst hrm
        constructor
        · rcases hmem with h' | h'
          · exact h' ▸ List.mem_cons_self x xs
          · exact List.mem_cons_of_mem x h'
        · intro y hy
          rcases List.mem_cons.mp hy with h' | h'
          · exact h' ▸ hle
          · exact hall y h'
  · intro f hf
    have h : (rows.map f).foldl latestStep none =
        Option.map f (rows.foldl latestStep none) :=
      foldl_latestStep_map f hf rows none
    unfold GetLatestProof latestByBatchNumber
    rw [h]
    cases rows.foldl latestStep none with
    | none => rfl
    | some r => rfl

theorem getLatestConfirmedProof_spec_witness :
    GetLatestConfirmedProof
        [⟨"p1", "c1", "r1", "b1", 50, 1⟩, ⟨"p2", "c2", "r2", "b2", 50, 2⟩] =
      GetLatestProof
        [⟨"p1", "c1", "r1", "b1", 50, 1⟩, ⟨"p2", "c2", "r2", "b2", 50, 2⟩]
    ∧ (⟨"p2", "c2", "r2", "b2", 50, 2⟩ : ProofRow) ∈
        [(⟨"p1", "c1", "r1", "b1", 50, 1⟩ : ProofRow), ⟨"p2", "c2", "r2", "b2", 50, 2⟩]
    ∧ ∀ x ∈ [(⟨"p1", "c1", "r1", "b1", 50, 1⟩ : ProofRow), ⟨"p2", "c2", "r2", "b2", 50, 2⟩],
        x.BatchNumber ≤ (2 : Int) := by
  have h := getLatestConfirmedProof_spec
    [⟨"p1", "c1", "r1", "b1", 50, 1⟩, ⟨"p2", "c2", "r2", "b2", 50, 2⟩]
  have hok := h.2.2.1 ⟨"p2", "c2", "r2", "b2", 50, 2⟩ rfl
  exact ⟨h.1, hok.1, hok.2⟩

/-! ## C2: batch commitment binding (src/unnamed/part_004 and part_005)

`Witness.Run` emits `BatchCommitment = poseidon.PoseidonBytes(beforeRoot,
afterRoot, beforeCex, afterCex)`; the batch-mode verifier recomputes the same
Poseidon hash from the stored roots and CEX commitments and panics when it
differs from the stored `batch_commitment`. -/

/-- One deserialized proof record in the batch-mode verifier (src/unnamed/
part_005): `accountTreeRoots[0..1]`, `cexAssetListCommitments[0..1]` and the
stored `batch_commitment`. -/
structure ProofMeta where
  accountTreeRoot0 : Nat
  accountTreeRoot1 : Nat
  cexCommitment0 : Nat
  cexCommitment1 : Nat
  batchCommitment : Nat
  deriving Repr, DecidableEq, Inhabited

/-- The witness builder's batch commitment (src/unnamed/part_004, the
`poseidon.PoseidonBytes` call in `Witness.Run`). -/
def mkBatchCommitment (sponge : List Nat → Nat)
    (beforeRoot afterRoot beforeCex afterCex : Nat) : Nat :=
  sponge [beforeRoot, afterRoot, beforeCex, afterCex]

/-- The verifier's public-input check (src/unnamed/part_005: write
`accountTreeRoots[0]`, `accountTreeRoots[1]`, `cexAssetListCommitments[0]`,
`cexAssetListCommitments[1]` into a fresh Poseidon hasher and compare with the
stored batch commitment); `false` is the panic
`"verify proof <n> failed"`. -/
def verifierPublicInputCheck (sponge : List Nat → Nat) (m : ProofMeta) : Bool :=
  sponge [m.accountTreeRoot0, m.accountTreeRoot1,
    m.cexCommitment0, m.cexCommitment1] == m.batchCommitment

/-- C2: the emitted batch commitment is the Poseidon hash of
(before_root, after_root, before_cex, after_cex) in that order; the verifier
recomputes this hash and rejects exactly when it differs from the stored
batch commitment; in particular a record whose commitment was produced by the
witness builder from the stored roots and CEX commitments always passes. -/
theorem batchCommitment_binding (sponge : List Nat → Nat) :
    (∀ beforeRoot afterRoot beforeCex afterCex : Nat,
        mkBatchCommitment sponge beforeRoot afterRoot beforeCex afterCex =
          sponge [beforeRoot, afterRoot, beforeCex, afterCex])
    ∧ (∀ m : ProofMeta, verifierPublicInputCheck sponge m = false ↔
        sponge [m.accountTreeRoot0, m.accountTreeRoot1,
          m.cexCommitment0, m.cexCommitment1] ≠ m.batchCommitment)
    ∧ (∀ beforeRoot afterRoot beforeCex afterCex : Nat,
        verifierPublicInputCheck sponge
          ⟨beforeRoot, afterRoot, beforeCex, afterCex,
            mkBatchCommitment sponge beforeRoot afterRoot beforeCex afterCex⟩ =
          true) := by
  refine ⟨fun _ _ _ _ => rfl, ?_, ?_⟩
  · intro m
    unfold verifierPublicInputCheck
    constructor
    · intro hfalse heq
      rw [heq] at hfalse
      simp at hfalse
    · intro hne
      simpa using hne
  · intro beforeRoot afterRoot beforeCex afterCex
    unfold verifierPublicInputCheck mkBatchCommitment
    exact beq_self_eq_true _

/-! ## CEX asset commitments (src/unnamed/part_003), needed for C1 -/

/-- Mirrors `utils.CexAssetInfo` (src/src/utils/types.go); the three ratio
tables always hold `TierCount = 12` entries in the Go code. -/
structure CexAssetInfo where
  TotalEquity : Nat
  TotalDebt : Nat
  BasePrice : Nat
  Symbol : String
  Index : Nat
  LoanCollateral : Nat
  MarginCollateral : Nat
  PortfolioMarginCollateral : Nat
  LoanRatios : List TierRatio
  MarginRatios : List TierRatio
  PortfolioMarginRatios : List TierRatio
  deriving Repr, DecidableEq, Inhabited

/-- Mirrors `utils.ConvertTierRatiosToBytes` (src/unnamed/part_003): two
consecutive tiers are packed into one absorbed element as
`ratio1 + boundary1 * 2^8 + ratio2 * 2^126 + boundary2 * 2^134`.  The Go loop
steps by two over an even-length (12-entry) array. -/
def ConvertTierRatiosToBytes : List TierRatio → List Nat
  | t1 :: t2 :: rest =>
      (t1.Ratio + t1.BoundaryValue * 256 +
        (t2.Ratio * 2 ^ 126 + t2.BoundaryValue * 2 ^ 134)) ::
        ConvertTierRatiosToBytes rest
  | _ => []

/-- Mirrors `utils.ConvertAssetInfoToBytes` (src/unnamed/part_003) for
`CexAssetInfo`: totals/price packed as `te*2^128 + td*2^64 + price`, the three
collateral amounts packed likewise, then the three packed tier tables. -/
def ConvertAssetInfoToBytes (t : CexAssetInfo) : List Nat :=
  (t.TotalEquity * 2 ^ 128 + t.TotalDebt * 2 ^ 64 + t.BasePrice) ::
  (t.PortfolioMarginCollateral +
    (t.LoanCollateral * 2 ^ 128 + t.MarginCollateral * 2 ^ 64)) ::
  (ConvertTierRatiosToBytes t.LoanRatios ++
    ConvertTierRatiosToBytes t.MarginRatios ++
    ConvertTierRatiosToBytes t.PortfolioMarginRatios)

/-- Mirrors `utils.PaddingTierRatios` (src/unnamed/part_003): right-pad to
`TierCount` entries with the sentinel
`{MaxTierBoundaryValue, 0, last real precomputed value}`; `none` models the
Go panic when more than `TierCount` tiers are supplied. -/
def PaddingTierRatios (tiersRatio : List TierRatio) : Option (List TierRatio) :=
  if tiersRatio.length > TierCount then none
  else some (tiersRatio ++ List.replicate (TierCount - tiersRatio.length)
    { BoundaryValue := MaxTierBoundaryValue
      Ratio := 0
      PrecomputedValue :=
        match tiersRatio.getLast? with
        | some t => t.PrecomputedValue
        | none => 0 })

/-- The 12-sentinel tier table `PaddingTierRatios([])`. -/
def emptyTierRatios : List TierRatio :=
  match PaddingTierRatios [] with
  | some l => l
  | none => []

/-- The `"reserved"` placeholder asset used to pad the CEX asset list to
`AssetCounts` entries (src/unnamed/part_003). -/
def reservedCexAsset (i : Nat) : CexAssetInfo :=
  { TotalEquity := 0
    TotalDebt := 0
    BasePrice := 0
    Symbol := "reserved"
    Index := i
    LoanCollateral := 0
    MarginCollateral := 0
    PortfolioMarginCollateral := 0
    LoanRatios := emptyTierRatios
    MarginRatios := emptyTierRatios
    PortfolioMarginRatios := emptyTierRatios }

/-- Mirrors `utils.ComputeCexAssetsCommitment` (src/unnamed/part_003): pad the
asset list to `AssetCounts` entries with reserved assets, absorb every asset's
packed representation, and squeeze the sponge. -/
def ComputeCexAssetsCommitment (sponge : List Nat → Nat)
    (cexAssetsInfo : List CexAssetInfo) : Nat :=
  let padded := cexAssetsInfo ++
    (List.range (AssetCounts - cexAssetsInfo.length)).map
      (fun k => reservedCexAsset (cexAssetsInfo.length + k))
  sponge (padded.map ConvertAssetInfoToBytes).flatten

/-! ## C1: the batch-mode verifier's serial pass (src/unnamed/part_005) -/

/-- The depth-28 empty account tree root constant hard-coded in the verifier
(src/unnamed/part_005), read as a big-endian 32-byte value. -/
def emptyAccountTreeRootNat : Nat :=
  0x08696bfcb563a2ee4dde9e1dbd34f68d3f4643df6e3709cdb1855c9f886240c7

/-- The verifier's zeroing of the configured CEX assets (src/unnamed/part_005):
all five running totals are reset while prices and ratio tables are kept. -/
def zeroedCexAssetsInfo (l : List CexAssetInfo) : List CexAssetInfo :=
  l.map fun a =>
    { a with
      TotalEquity := 0
      TotalDebt := 0
      LoanCollateral := 0
      MarginCollateral := 0
      PortfolioMarginCollateral := 0 }

/-- The verifier's serial loop over batch numbers (src/unnamed/part_005):
check `roots[0] == prevRoots[1]` and `cex[0] == prevCex[1]`, then roll
forward; `none` models the panic, otherwise the final
`finalCexAssetsInfoComm` (`none` inside when no batch was processed). -/
def serialChainLoop : List ProofMeta → Nat → Nat → Option Nat →
    Option (Option Nat)
  | [], _, _, finalCex => some finalCex
  | m :: rest, prevRoot, prevCex, _ =>
      if m.accountTreeRoot0 == prevRoot && m.cexCommitment0 == prevCex then
        serialChainLoop rest m.accountTreeRoot1 m.cexCommitment1
          (some m.cexCommitment1)
      else none

/-- The serial pass of the batch-mode verifier `main` (src/unnamed/part_005):
start from the depth-28 empty tree root and the commitment of the zeroed
configured CEX assets, walk the chain, and finally require the last after-CEX
commitment to equal the commitment of the declared totals. -/
def verifierSerialPass (sponge : List Nat → Nat)
    (cexConfig : List CexAssetInfo) (metas : List ProofMeta) : Bool :=
  match serialChainLoop metas emptyAccountTreeRootNat
      (ComputeCexAssetsCommitment sponge (zeroedCexAssetsInfo cexConfig))
      none with
  | none => false
  | some finalCex =>
      finalCex == some (ComputeCexAssetsCommitment sponge cexConfig)

/-- The chain condition of C1 relative to initial root `r` and initial CEX
commitment `c`: every batch's stored before-root (resp. before-CEX
commitment) equals the previous batch's after-root (resp. after-CEX
commitment), the k = 0 batch being compared against `r` and `c`. -/
def chainLinked (r c : Nat) (metas : List ProofMeta) : Prop :=
  ∀ k, k < metas.length →
    (metas.getD k default).accountTreeRoot0 =
        (if k = 0 then r else (metas.getD (k - 1) default).accountTreeRoot1)
    ∧ (metas.getD k default).cexCommitment0 =
        (if k = 0 then c else (metas.getD (k - 1) default).cexCommitment1)

theorem chainLinked_cons (r c : Nat) (m : ProofMeta) (rest : List ProofMeta) :
    chainLinked r c (m :: rest) ↔
      (m.accountTreeRoot0 = r ∧ m.cexCommitment0 = c) ∧
        chainLinked m.accountTreeRoot1 m.cexCommitment1 rest := by
  constructor
  · intro h
    refine ⟨?_, ?_⟩
    · have h0 := h 0 (Nat.succ_pos _)
      simpa using h0
    · intro k hk
      have hk1 := h (k + 1) (Nat.succ_lt_succ hk)
      cases k with
      | zero => simpa using hk1
      | succ j => simpa using hk1
  · rintro ⟨⟨hr, hc⟩, hrest⟩
    intro k hk
    cases k with
    | zero => simpa using ⟨hr, hc⟩
    | succ j =>
        have hj : j < rest.length := Nat.lt_of_succ_lt_succ hk
        have := hrest j hj
        cases j with
        | zero => simpa using this
        | succ i => simpa using this

/-- The value of `finalCexAssetsInfoComm` after a successful loop: the last
batch's after-CEX commitment, or the initial `fc` when no batch ran. -/
def lastCexOr (metas : List ProofMeta) (fc : Option Nat) : Option Nat :=
  match metas.getLast? with
  | some m => some m.cexCommitment1
  | none => fc

theorem lastCexOr_cons (m : ProofMeta) (rest : List ProofMeta)
    (fc : Option Nat) :
    lastCexOr (m :: rest) fc = lastCexOr rest (some m.cexCommitment1) := by
  cases rest with
  | nil => rfl
  | cons u us =>
      unfold lastCexOr
      rw [List.getLast?_cons_cons]
      cases h : (u :: us).getLast? with
      | none => simp at h
      | some w => rfl

theorem serialChainLoop_eq_some_iff :
    ∀ (metas : List ProofMeta) (r c : Nat) (fc out : Option Nat),
      serialChainLoop metas r c fc = some out ↔
        chainLinked r c metas ∧ out = lastCexOr metas fc := by
  intro metas
  induction metas with
  | nil =>
      intro r c fc out
      constructor
      · intro h
        refine ⟨fun k hk => absurd hk (by simp), ?_⟩
        have : fc = out := by simpa [serialChainLoop] using h
        simp [lastCexOr, this]
      · rintro ⟨_, hout⟩
        simp [serialChainLoop, lastCexOr] at hout
        simp [serialChainLoop, hout]
  | cons m rest ih =>
      intro r c fc out
      by_cases hlink : m.accountTreeRoot0 = r ∧ m.cexCommitment0 = c
      · have hcond : (m.accountTreeRoot0 == r && m.cexCommitment0 == c) = true := by
          simp [hlink.1, hlink.2]
        have hstep : serialChainLoop (m :: rest) r c fc =
            serialChainLoop rest m.accountTreeRoot1 m.cexCommitment1
              (some m.cexCommitment1) := by
          simp [serialChainLoop, hcond]
        rw [hstep, ih, chainLinked_cons, lastCexOr_cons]
        constructor
        · rintro ⟨h1, h2⟩; exact ⟨⟨hlink, h1⟩, h2⟩
        · rintro ⟨⟨_, h1⟩, h2⟩; exact ⟨h1, h2⟩
      · have hcond : (m.accountTreeRoot0 == r && m.cexCommitment0 == c) = false := by
          rcases not_and_or.mp hlink with h | h
          · have hb : (m.accountTreeRoot0 == r) = false := by simpa using h
            simp [hb]
          · have hb : (m.cexCommitment0 == c) = false := by simpa using h
            simp [hb]
        have hstep : serialChainLoop (m :: rest) r c fc = none := by
          simp [serialChainLoop, hcond]
        rw [hstep]
        constructor
        · intro h; exact absurd h (by simp)
        · rintro ⟨hch, _⟩
          exact absurd ((chainLinked_cons r c m rest).mp hch).1 hlink

/-- C1: the verifier's serial pass accepts iff every batch's stored
before-root equals the previous batch's after-root (the depth-28 empty-tree
root constant for batch 0), every batch's stored before-CEX commitment equals
the previous batch's after-CEX commitment (the commitment of the zeroed
configured CEX assets for batch 0), and the last batch's after-CEX commitment
equals the commitment computed from the declared totals in the verifier
config. -/
theorem verifierSerialPass_iff (sponge : List Nat → Nat)
    (cexConfig : List CexAssetInfo) (metas : List ProofMeta)
    (h : metas ≠ []) :
    verifierSerialPass sponge cexConfig metas = true ↔
      chainLinked emptyAccountTreeRootNat
          (ComputeCexAssetsCommitment sponge (zeroedCexAssetsInfo cexConfig))
          metas
      ∧ (metas.getLast h).cexCommitment1 =
          ComputeCexAssetsCommitment sponge cexConfig := by
  unfold verifierSerialPass
  have hlast : metas.getLast? = some (metas.getLast h) :=
    List.getLast?_eq_getLast metas h
  have hlc : lastCexOr metas none = some ((metas.getLast h).cexCommitment1) := by
    unfold lastCexOr
    rw [hlast]
  constructor
  · intro hpass
    cases hloop : serialChainLoop metas emptyAccountTreeRootNat
        (ComputeCexAssetsCommitment sponge (zeroedCexAssetsInfo cexConfig))
        none with
    | none => rw [hloop] at hpass; exact absurd hpass (by simp)
    | some fc =>
        rw [hloop] at hpass
        have hfc : fc = some (ComputeCexAssetsCommitment sponge cexConfig) := by
          simpa using hpass
        obtain ⟨hch, hout⟩ := (serialChainLoop_eq_some_iff metas _ _ _ fc).mp hloop
        refine ⟨hch, ?_⟩
        rw [hlc] at hout
        rw [hfc] at hout
        exact (Option.some.injEq _ _ ▸ hout.symm ▸ rfl)
  · rintro ⟨hch, hfin⟩
    have : serialChainLoop metas emptyAccountTreeRootNat
        (ComputeCexAssetsCommitment sponge (zeroedCexAssetsInfo cexConfig))
        none = some (lastCexOr metas none) :=
      (serialChainLoop_eq_some_iff metas _ _ _ _).mpr ⟨hch, rfl⟩
    rw [this, hlc]
    simp [hfin]

theorem verifierSerialPass_iff_witness :
    verifierSerialPass (fun _ => 0) []
      [⟨emptyAccountTreeRootNat, 77, 0, 0, 0⟩] = true := by
  refine (verifierSerialPass_iff (fun _ => 0) []
    [⟨emptyAccountTreeRootNat, 77, 0, 0, 0⟩] (by simp)).mpr ⟨?_, rfl⟩
  intro k hk
  have hk0 : k = 0 := Nat.lt_one_iff.mp (by simpa using hk)
  subst hk0
  exact ⟨rfl, rfl⟩

/-! ## C5 / C6: user asset padding and commitment (src/unnamed/part_003) -/

/-- Mirrors `utils.GetAssetsCountOfUser` (src/unnamed/part_003): the first
tier in `AssetCountsTiers` at least as large as the asset count, 0 when none
fits. -/
def GetAssetsCountOfUser (assets : List AccountAsset) : Nat :=
  match AssetCountsTiers.find? (fun v => assets.length ≤ v) with
  | some v => v
  | none => 0

/-- The six u64 fields written for one real asset in
`PaddingAccountAssets`. -/
def assetRow (a : AccountAsset) : List Nat :=
  [a.Index, a.Equity, a.Debt, a.Loan, a.Margin, a.PortfolioMargin]

/-- The body of the inner loop of `PaddingAccountAssets`, structurally
recursive on the remaining gap size `stop - j`. -/
def fillGapFuel (paddingCounts : Nat) : Nat → Nat → Nat → List Nat × Nat
  | 0, _, curPad => ([], curPad)
  | gap + 1, j, curPad =>
      if paddingCounts ≤ curPad + 1 then ([j], curPad + 1)
      else
        let r := fillGapFuel paddingCounts gap (j + 1) (curPad + 1)
        (j :: r.1, r.2)

/-- The inner loop of `PaddingAccountAssets` (src/unnamed/part_003): starting
at gap index `j`, emit consecutive padding indices below `stop`, stopping as
soon as the padding budget `paddingCounts` is reached (the caller guarantees
`curPad < paddingCounts` on entry).  Returns the emitted indices and the new
padding count. -/
def fillGap (stop paddingCounts j curPad : Nat) : List Nat × Nat :=
  fillGapFuel paddingCounts (stop - j) j curPad

/-- The main loop of `PaddingAccountAssets` (src/unnamed/part_003), emitting
one 6-field row per slot instead of writing into a flat array (the Go code
writes row `r` at offset `6*r` of a pre-zeroed array, which is the same
data).  Returns the rows emitted so far, the final padding count, and the
final `currentAssetIndex`. -/
def paddingLoop (paddingCounts : Nat) :
    List AccountAsset → Nat → Nat → List (List Nat) × Nat × Nat
  | [], curPad, curIdx => ([], curPad, curIdx)
  | a :: rest, curPad, curIdx =>
      let gapRes := if curPad < paddingCounts
        then fillGap a.Index paddingCounts curIdx curPad
        else ([], curPad)
      let tailRes := paddingLoop paddingCounts rest gapRes.2 (a.Index + 1)
      (gapRes.1.map (fun j => [j, 0, 0, 0, 0, 0]) ++ assetRow a :: tailRes.1,
       tailRes.2.1, tailRes.2.2)

/-- Mirrors `utils.PaddingAccountAssets` (src/unnamed/part_003): `none` models
the panic when the target count is below the asset count; otherwise the
flattened `6 * targetCounts` u64 fields, the trailing slots being padding
rows with consecutive synthetic indices. -/
def PaddingAccountAssets (assets : List AccountAsset) : Option (List Nat) :=
  let targetCounts := GetAssetsCountOfUser assets
  if targetCounts < assets.length then none
  else
    let res := paddingLoop (targetCounts - assets.length) assets 0 0
    some ((res.1 ++ (List.range (targetCounts - res.1.length)).map
      (fun k => [res.2.2 + k, 0, 0, 0, 0, 0])).flatten)

/-- The sequence of field elements absorbed by the Poseidon sponge in
`utils.ComputeUserAssetsCommitment` (src/unnamed/part_003): element `i` packs
`flat[3i] * 2^128 + flat[3i+1] * 2^64 + flat[3i+2]` (out-of-range reads give
0, as in the Go bounds checks), for `i < (targetCounts*6 + 2)/3`. -/
def userAssetsAbsorbedList (assets : List AccountAsset) : Option (List Nat) :=
  match PaddingAccountAssets assets with
  | none => none
  | some flat =>
      some ((List.range ((GetAssetsCountOfUser assets * 6 + 2) / 3)).map
        (fun i => flat.getD (i * 3) 0 * 2 ^ 128 +
          flat.getD (i * 3 + 1) 0 * 2 ^ 64 + flat.getD (i * 3 + 2) 0))

/-- Mirrors `utils.ComputeUserAssetsCommitment` (src/unnamed/part_003): the
sponge digest of the absorbed element sequence; `none` models the panic
propagated from `PaddingAccountAssets`. -/
def ComputeUserAssetsCommitment (sponge : List Nat → Nat)
    (assets : List AccountAsset) : Option Nat :=
  (userAssetsAbsorbedList assets).map sponge

/-- Specification-side packing (spec.md §commitment): group the flat field
list in threes and pack each group as `a * 2^128 + b * 2^64 + c`. -/
def packIn3 : List Nat → List Nat
  | a :: b :: c :: rest => (a * 2 ^ 128 + b * 2 ^ 64 + c) :: packIn3 rest
  | _ => []

/-- The 10 sparse test assets of `TestComputeUserAssetsCommitment`
(src/src/utils/utils_test.go): positions `3i`, equity `1000+10i`, debt
`500+10i`, loan = margin = portfolio_margin = `100+10i`. -/
def sparseTestAssets : List AccountAsset :=
  (List.range 10).map fun i =>
    { Index := 3 * i
      Equity := 1000 + 10 * i
      Debt := 500 + 10 * i
      Loan := 100 + 10 * i
      Margin := 100 + 10 * i
      PortfolioMargin := 100 + 10 * i }

/-- The dense test list of length `n`: the same amounts as
`sparseTestAssets` at positions `3i` (`i < 10`) and zero amounts elsewhere,
with `Index = position` throughout. -/
def denseTestAssets (n : Nat) : List AccountAsset :=
  (List.range n).map fun i =>
    if i % 3 = 0 ∧ i / 3 < 10 then
      { Index := i
        Equity := 1000 + 10 * (i / 3)
        Debt := 500 + 10 * (i / 3)
        Loan := 100 + 10 * (i / 3)
        Margin := 100 + 10 * (i / 3)
        PortfolioMargin := 100 + 10 * (i / 3) }
    else
      { Index := i, Equity := 0, Debt := 0, Loan := 0, Margin := 0,
        PortfolioMargin := 0 }

/-- C6 counterexample: the 10-entry sparse list is padded to tier length 50
(100 absorbed elements) while the full-length-500 list is padded to tier
length 500 (1000 absorbed elements), so the two commitments are computed from
different absorbed sequences and differ for the element-count sponge. -/
theorem userAssetsCommitment_sparse_ne_dense500 :
    ComputeUserAssetsCommitment (fun l => l.length) sparseTestAssets = some 100
    ∧ ComputeUserAssetsCommitment (fun l => l.length) (denseTestAssets 500) =
        some 1000
    ∧ ComputeUserAssetsCommitment (fun l => l.length) sparseTestAssets ≠
        ComputeUserAssetsCommitment (fun l => l.length) (denseTestAssets 500) := by
  refine ⟨by decide, by decide, by decide⟩

/-- C6 (amended): the commitment of the 10 sparse test assets equals the
commitment of the full-length-50 list holding the same amounts at those
positions and zero amounts elsewhere — both expand to the tier length 50, so
the absorbed element sequences coincide for every sponge. -/
theorem userAssetsCommitment_sparse_eq_dense50 (sponge : List Nat → Nat) :
    ComputeUserAssetsCommitment sponge sparseTestAssets =
      ComputeUserAssetsCommitment sponge (denseTestAssets 50) := by
  have h : userAssetsAbsorbedList sparseTestAssets =
      userAssetsAbsorbedList (denseTestAssets 50) := by decide
  unfold ComputeUserAssetsCommitment
  rw [h]

theorem fillGapFuel_spec (paddingCounts : Nat) :
    ∀ (gap j curPad : Nat), curPad < paddingCounts →
      fillGapFuel paddingCounts gap j curPad =
        (List.range' j (min gap (paddingCounts - curPad)),
         curPad + min gap (paddingCounts - curPad)) := by
  intro gap
  induction gap with
  | zero =>
      intro j curPad h
      simp [fillGapFuel]
  | succ g ih =>
      intro j curPad h
      simp only [fillGapFuel]
      by_cases hle : paddingCounts ≤ curPad + 1
      · rw [if_pos hle]
        have hmin : min (g + 1) (paddingCounts - curPad) = 1 := by omega
        have h1 : List.range' j 1 = [j] := List.range'_one
        rw [hmin, h1]
      · rw [if_neg hle]
        have h' : curPad + 1 < paddingCounts := by omega
        simp only [ih (j + 1) (curPad + 1) h']
        have hmin : min (g + 1) (paddingCounts - curPad) =
            min g (paddingCounts - (curPad + 1)) + 1 := by omega
        have hsum : curPad + 1 + min g (paddingCounts - (curPad + 1)) =
            curPad + (min g (paddingCounts - (curPad + 1)) + 1) := by omega
        rw [hmin, List.range'_succ, hsum]

theorem paddingLoop_spec (paddingCounts : Nat) :
    ∀ (assets : List AccountAsset) (curPad curIdx : Nat),
      List.Pairwise (fun a b => a.Index < b.Index) assets →
      (∀ a ∈ assets, curIdx ≤ a.Index) →
      curPad ≤ paddingCounts →
      ∀ rows finPad finIdx,
        paddingLoop paddingCounts assets curPad curIdx =
          (rows, finPad, finIdx) →
        rows.length + curPad = assets.length + finPad
        ∧ curPad ≤ finPad ∧ finPad ≤ paddingCounts
        ∧ curIdx ≤ finIdx
        ∧ (∀ r ∈ rows, r.length = 6)
        ∧ (∀ r ∈ rows, curIdx ≤ r.getD 0 0 ∧ r.getD 0 0 < finIdx)
        ∧ List.Pairwise (fun r s => r.getD 0 0 < s.getD 0 0) rows
        ∧ List.Sublist (assets.map assetRow) rows
        ∧ (∀ r ∈ rows,
            r ∈ assets.map assetRow ∨ ∃ j, r = [j, 0, 0, 0, 0, 0]) := by
  intro assets
  induction assets with
  | nil =>
      intro curPad curIdx _ _ hpad rows finPad finIdx heq
      simp only [paddingLoop] at heq
      injection heq with h1 h2
      injection h2 with h2 h3
      subst h1 h2 h3
      refine ⟨by simp, le_refl _, hpad, le_refl _, by simp, by simp, by simp,
        by simp, by simp⟩
  | cons a rest ih =>
      intro curPad curIdx hsort hmin hpad rows finPad finIdx heq
      obtain ⟨ha, hsort'⟩ := List.pairwise_cons.mp hsort
      have hcurA : curIdx ≤ a.Index := hmin a (List.mem_cons_self a rest)
      have hmin' : ∀ b ∈ rest, a.Index + 1 ≤ b.Index := fun b hb => ha b hb
      -- unified description of the gap step
      have hgap : (if curPad < paddingCounts
          then fillGap a.Index paddingCounts curIdx curPad
          else ([], curPad)) =
          (List.range' curIdx (min (a.Index - curIdx) (paddingCounts - curPad)),
           curPad + min (a.Index - curIdx) (paddingCounts - curPad)) := by
        by_cases hcp : curPad < paddingCounts
        · rw [if_pos hcp]
          unfold fillGap
          exact fillGapFuel_spec paddingCounts (a.Index - curIdx) curIdx
            curPad hcp
        · rw [if_neg hcp]
          have hm0 : min (a.Index - curIdx) (paddingCounts - curPad) = 0 := by
            omega
          rw [hm0]
          simp [List.range']
      simp only [paddingLoop, hgap] at heq
      set m := min (a.Index - curIdx) (paddingCounts - curPad) with hm
      have hpad' : curPad + m ≤ paddingCounts := by omega
      have hmem_gap : ∀ x ∈ List.range' curIdx m, curIdx ≤ x ∧ x < curIdx + m :=
        fun x hx => List.mem_range'_1.mp hx
      have hcap : curIdx + m ≤ a.Index := by omega
      rcases htl : paddingLoop paddingCounts rest (curPad + m) (a.Index + 1)
        with ⟨tailRows, tailPad, tailIdx⟩
      obtain ⟨ihlen, ihp1, ihp2, ihidx, ih6, ihb, ihpw, ihsub, ihcl⟩ :=
        ih (curPad + m) (a.Index + 1) hsort' hmin' hpad'
          tailRows tailPad tailIdx htl
      rw [htl] at heq
      dsimp only at heq
      injection heq with h1 h2
      injection h2 with h2 h3
      subst h1 h2 h3
      have hIdxlt : a.Index < tailIdx := Nat.lt_of_lt_of_le (Nat.lt_succ_self _) ihidx
      refine ⟨?_, by omega, ihp2, by omega, ?_, ?_, ?_, ?_, ?_⟩
      · simp only [List.length_append, List.length_map, List.length_cons,
          List.length_range']
        omega
      · intro r hr
        rcases List.mem_append.mp hr with hr | hr
        · obtain ⟨j, _, rfl⟩ := List.mem_map.mp hr
          rfl
        · rcases List.mem_cons.mp hr with hr | hr
          · rw [hr]; rfl
          · exact ih6 r hr
      · intro r hr
        rcases List.mem_append.mp hr with hr | hr
        · obtain ⟨j, hj, rfl⟩ := List.mem_map.mp hr
          obtain ⟨hj1, hj2⟩ := hmem_gap j hj
          simp only [List.getD_cons_zero]
          omega
        · rcases List.mem_cons.mp hr with hr | hr
          · rw [hr]
            simp only [assetRow, List.getD_cons_zero]
            omega
          · obtain ⟨hb1, hb2⟩ := ihb r hr
            omega
      · rw [List.pairwise_append]
        refine ⟨?_, ?_, ?_⟩
        · rw [List.pairwise_map]
          have := List.pairwise_lt_range' curIdx m
          exact this.imp (fun {x y} hxy => by
            simpa only [List.getD_cons_zero] using hxy)
        · rw [List.pairwise_cons]
          constructor
          · intro r hr
            obtain ⟨hb1, _⟩ := ihb r hr
            simp only [assetRow, List.getD_cons_zero]
            omega
          · exact ihpw
        · intro x hx y hy
          obtain ⟨j, hj, rfl⟩ := List.mem_map.mp hx
          obtain ⟨hj1, hj2⟩ := hmem_gap j hj
          rcases List.mem_cons.mp hy with hy | hy
          · rw [hy]
            simp only [assetRow, List.getD_cons_zero]
            omega
          · obtain ⟨hb1, _⟩ := ihb y hy
            simp only [List.getD_cons_zero]
            omega
      · rw [List.map_cons]
        have h1 : List.Sublist (assetRow a :: rest.map assetRow)
            (assetRow a :: tailRows) := List.Sublist.cons₂ _ ihsub
        exact h1.trans (List.sublist_append_right _ _)
      · intro r hr
        rcases List.mem_append.mp hr with hr | hr
        · obtain ⟨j, _, rfl⟩ := List.mem_map.mp hr
          exact Or.inr ⟨j, rfl⟩
        · rcases List.mem_cons.mp hr with hr | hr
          · exact Or.inl (by rw [hr, List.map_cons]; exact List.mem_cons_self _ _)
          · rcases ihcl r hr with hcl | hcl
            · exact Or.inl (by rw [List.map_cons]; exact List.mem_cons_of_mem _ hcl)
            · exact Or.inr hcl

theorem getAssetsCountOfUser_eq (assets : List AccountAsset)
    (hlen : assets.length ≤ 500) :
    GetAssetsCountOfUser assets = if assets.length ≤ 50 then 50 else 500 := by
  unfold GetAssetsCountOfUser AssetCountsTiers
  by_cases h : assets.length ≤ 50
  · rw [List.find?_cons_of_pos _ (by simpa using h)]
    rw [if_pos h]
  · rw [List.find?_cons_of_neg _ (by simpa using h),
      List.find?_cons_of_pos _ (by simpa using hlen)]
    rw [if_neg h]

theorem flatten_length_of_rows6 :
    ∀ (l : List (List Nat)), (∀ r ∈ l, r.length = 6) →
      l.flatten.length = 6 * l.length := by
  intro l
  induction l with
  | nil => intro _; simp
  | cons x xs ih =>
      intro h
      simp only [List.flatten_cons, List.length_append, List.length_cons]
      rw [h x (List.mem_cons_self x xs),
        ih (fun r hr => h r (List.mem_cons_of_mem x hr))]
      ring

theorem packIn3_eq_rangeMap :
    ∀ (n : Nat) (l : List Nat), l.length = 3 * n →
      (List.range n).map (fun i => l.getD (i * 3) 0 * 2 ^ 128 +
          l.getD (i * 3 + 1) 0 * 2 ^ 64 + l.getD (i * 3 + 2) 0) =
        packIn3 l := by
  intro n
  induction n with
  | zero =>
      intro l hl
      have : l = [] := List.length_eq_zero.mp (by omega)
      subst this
      rfl
  | succ k ih =>
      intro l hl
      rcases l with _ | ⟨a, l⟩
      · simp at hl
      rcases l with _ | ⟨b, l⟩
      · simp at hl; omega
      rcases l with _ | ⟨c, rest⟩
      · simp at hl; omega
      have hrest : rest.length = 3 * k := by
        simp only [List.length_cons] at hl
        omega
      rw [List.range_succ_eq_map, List.map_cons, List.map_map]
      have hmapeq : (List.range k).map
          ((fun i => (a :: b :: c :: rest).getD (i * 3) 0 * 2 ^ 128 +
            (a :: b :: c :: rest).getD (i * 3 + 1) 0 * 2 ^ 64 +
            (a :: b :: c :: rest).getD (i * 3 + 2) 0) ∘ Nat.succ) =
          (List.range k).map (fun i => rest.getD (i * 3) 0 * 2 ^ 128 +
            rest.getD (i * 3 + 1) 0 * 2 ^ 64 + rest.getD (i * 3 + 2) 0) := by
        refine List.map_congr_left ?_
        intro i _
        have h0 : Nat.succ i * 3 = i * 3 + 2 + 1 := by omega
        have h1 : Nat.succ i * 3 + 1 = (i * 3 + 2 + 1) + 1 := by omega
        have h2 : Nat.succ i * 3 + 2 = ((i * 3 + 2 + 1) + 1) + 1 := by omega
        simp only [Function.comp_apply, h0, h1, h2, List.getD_cons_succ]
      rw [hmapeq, ih rest hrest]
      rfl

theorem packIn3_length (n : Nat) (l : List Nat) (hl : l.length = 3 * n) :
    (packIn3 l).length = n := by
  rw [← packIn3_eq_rangeMap n l hl]
  simp

/-- C5: for an account whose assets are sorted strictly ascending by index
(and fit the largest tier), the user-asset commitment expands the list to the
smallest tier length `T ∈ {50, 500}` that fits, the expansion being `T` rows
of 6 u64 fields with strictly increasing leading indices in which the real
assets appear in order and every other row has a synthetic index and all-zero
amounts; the flattened `6T` fields are packed three at a time as
`a*2^128 + b*2^64 + c` and the resulting `2T` elements are absorbed by the
sponge. -/
theorem computeUserAssetsCommitment_spec (sponge : List Nat → Nat)
    (assets : List AccountAsset)
    (hsort : List.Pairwise (fun a b => a.Index < b.Index) assets)
    (hlen : assets.length ≤ 500) :
    GetAssetsCountOfUser assets = (if assets.length ≤ 50 then 50 else 500)
    ∧ ∃ flat : List Nat,
        PaddingAccountAssets assets = some flat
        ∧ flat.length = 6 * GetAssetsCountOfUser assets
        ∧ (∃ rows : List (List Nat),
            flat = rows.flatten
            ∧ rows.length = GetAssetsCountOfUser assets
            ∧ (∀ r ∈ rows, r.length = 6)
            ∧ List.Pairwise (fun r s => r.getD 0 0 < s.getD 0 0) rows
            ∧ List.Sublist (assets.map assetRow) rows
            ∧ (∀ r ∈ rows,
                r ∈ assets.map assetRow ∨ ∃ j, r = [j, 0, 0, 0, 0, 0]))
        ∧ ComputeUserAssetsCommitment sponge assets = some (sponge (packIn3 flat))
        ∧ (packIn3 flat).length = 2 * GetAssetsCountOfUser assets := by
  have hT := getAssetsCountOfUser_eq assets hlen
  have hTle : assets.length ≤ GetAssetsCountOfUser assets := by
    rw [hT]; split <;> omega
  have hTnotlt : ¬ (GetAssetsCountOfUser assets < assets.length) :=
    Nat.not_lt_of_le hTle
  rcases hpl : paddingLoop (GetAssetsCountOfUser assets - assets.length)
      assets 0 0 with ⟨rows0, finPad, finIdx⟩
  obtain ⟨hlen0, _, hfp2, _, h6, hb, hpw, hsub, hcl⟩ :=
    paddingLoop_spec (GetAssetsCountOfUser assets - assets.length) assets 0 0
      hsort (fun a _ => Nat.zero_le _) (Nat.zero_le _) rows0 finPad finIdx hpl
  have hrows0le : rows0.length ≤ GetAssetsCountOfUser assets := by omega
  set T := GetAssetsCountOfUser assets with hTdef
  set trailing : List (List Nat) := (List.range (T - rows0.length)).map
    (fun k => [finIdx + k, 0, 0, 0, 0, 0]) with htr
  have hflat : PaddingAccountAssets assets = some ((rows0 ++ trailing).flatten) := by
    unfold PaddingAccountAssets
    rw [if_neg hTnotlt, hpl]
  have hallLen : rows0.length + trailing.length = T := by
    rw [htr]
    simp only [List.length_map, List.length_range]
    omega
  have hall6 : ∀ r ∈ rows0 ++ trailing, r.length = 6 := by
    intro r hr
    rcases List.mem_append.mp hr with hr | hr
    · exact h6 r hr
    · obtain ⟨k, _, rfl⟩ := List.mem_map.mp hr
      rfl
  have hflatlen : (rows0 ++ trailing).flatten.length = 6 * T := by
    rw [flatten_length_of_rows6 _ hall6]
    simp only [List.length_append]
    omega
  refine ⟨hT, (rows0 ++ trailing).flatten, hflat, hflatlen,
    ⟨rows0 ++ trailing, rfl, by simpa using hallLen, hall6, ?_, ?_, ?_⟩,
    ?_, packIn3_length (2 * T) _ (by omega)⟩
  · -- pairwise increasing leading indices
    rw [List.pairwise_append]
    refine ⟨hpw, ?_, ?_⟩
    · rw [htr, List.pairwise_map]
      have := List.pairwise_lt_range (T - rows0.length)
      exact this.imp (fun {x y} hxy => by
        simpa only [List.getD_cons_zero] using Nat.add_lt_add_left hxy finIdx)
    · intro x hx y hy
      obtain ⟨hx1, hx2⟩ := hb x hx
      rw [htr] at hy
      obtain ⟨k, _, rfl⟩ := List.mem_map.mp hy
      simp only [List.getD_cons_zero]
      omega
  · exact hsub.trans (List.sublist_append_left _ _)
  · intro r hr
    rcases List.mem_append.mp hr with hr | hr
    · exact hcl r hr
    · rw [htr] at hr
      obtain ⟨k, _, rfl⟩ := List.mem_map.mp hr
      exact Or.inr ⟨finIdx + k, rfl⟩
  · -- the commitment is the sponge of the packed triples
    unfold ComputeUserAssetsCommitment userAssetsAbsorbedList
    rw [hflat]
    dsimp only
    have hnE : (GetAssetsCountOfUser assets * 6 + 2) / 3 = 2 * T := by
      rw [← hTdef]; omega
    rw [hnE, packIn3_eq_rangeMap (2 * T) ((rows0 ++ trailing).flatten) (by omega)]
    rfl

theorem computeUserAssetsCommitment_spec_witness :
    GetAssetsCountOfUser [⟨2, 5, 4, 1, 1, 1⟩] =
      (if ([⟨2, 5, 4, 1, 1, 1⟩] : List AccountAsset).length ≤ 50 then 50 else 500)
    ∧ ∃ flat : List Nat,
        PaddingAccountAssets [⟨2, 5, 4, 1, 1, 1⟩] = some flat
        ∧ flat.length = 6 * GetAssetsCountOfUser [⟨2, 5, 4, 1, 1, 1⟩]
        ∧ (∃ rows : List (List Nat),
            flat = rows.flatten
            ∧ rows.length = GetAssetsCountOfUser [⟨2, 5, 4, 1, 1, 1⟩]
            ∧ (∀ r ∈ rows, r.length = 6)
            ∧ List.Pairwise (fun r s => r.getD 0 0 < s.getD 0 0) rows
            ∧ List.Sublist (([⟨2, 5, 4, 1, 1, 1⟩] : List AccountAsset).map assetRow) rows
            ∧ (∀ r ∈ rows,
                r ∈ ([⟨2, 5, 4, 1, 1, 1⟩] : List AccountAsset).map assetRow
                  ∨ ∃ j, r = [j, 0, 0, 0, 0, 0]))
        ∧ ComputeUserAssetsCommitment (fun l => l.length) [⟨2, 5, 4, 1, 1, 1⟩] =
            some ((fun l => l.length) (packIn3 flat))
        ∧ (packIn3 flat).length =
            2 * GetAssetsCountOfUser [⟨2, 5, 4, 1, 1, 1⟩] :=
  computeUserAssetsCommitment_spec (fun l => l.length) [⟨2, 5, 4, 1, 1, 1⟩]
    (by decide) (by decide)

/-! ## C7: ParseTiersRatioFromStr (src/unnamed/part_003)

Strings are processed as their character lists.  The float conversion
`ConvertFloatStrToUint64` delegates to the third-party `decimal` library, so
it is abstracted as a parameter `conv : String -> Nat -> Option Nat` (input
string and multiplier; `none` is the conversion error; results are `uint64`
values); `decimalDigitsConv` below is a concrete instance restricted to plain
digit strings, used for concrete evaluations. -/

/-- Go `strings.Trim`: remove the characters of `cut` from both ends. -/
def goTrim (cut : List Char) (l : List Char) : List Char :=
  ((l.dropWhile fun c => cut.contains c).reverse.dropWhile
    fun c => cut.contains c).reverse

/-- `10000000000000000`, the `valueMultiplier` of `ParseTiersRatioFromStr`. -/
def tierValueMultiplier : Nat := 10000000000000000

/-- One iteration of the entry loop of `ParseTiersRatioFromStr` up to the
numeric conversions: trim spaces, split on `:` (two parts expected), split
the first part on `-` (two parts expected), convert the three pieces with
multiplier 1.  Returns `(lowBoundary, boundary, ratio)` before scaling. -/
def parseTierEntry (conv : String → Nat → Option Nat) (entry : List Char) :
    Option (Nat × Nat × Nat) :=
  let e := goTrim [' '] entry
  let tmpTierRatio := e.splitOn ':'
  let rangeValues := (tmpTierRatio.getD 0 []).splitOn '-'
  if tmpTierRatio.length ≠ 2 ∨ rangeValues.length ≠ 2 then none
  else
    match conv (String.mk (goTrim [' '] (rangeValues.getD 0 []))) 1 with
    | none => none
    | some lowBoundaryValue =>
        match conv (String.mk (goTrim [' '] (rangeValues.getD 1 []))) 1 with
        | none => none
        | some boundaryValue =>
            match conv (String.mk (goTrim [' '] (tmpTierRatio.getD 1 []))) 1 with
            | none => none
            | some ratio => some (lowBoundaryValue, boundaryValue, ratio)

/-- The entry loop of `ParseTiersRatioFromStr`: scale boundaries by
`tierValueMultiplier`, reject a boundary strictly below its lower bound or
strictly above `MaxTierBoundaryValue`, append the tier (`uint8(ratio)` is
`ratio % 256`), and reject a boundary not strictly above the previous
entry's. -/
def parseTiersGo (conv : String → Nat → Option Nat) :
    List (List Char) → List TierRatio → Option (List TierRatio)
  | [], acc => some acc
  | e :: rest, acc =>
      match parseTierEntry conv e with
      | none => none
      | some (low, b, r) =>
          let boundaryValueBigInt := b * tierValueMultiplier
          let lowBoundaryValueBigInt := low * tierValueMultiplier
          if boundaryValueBigInt < lowBoundaryValueBigInt then none
          else if MaxTierBoundaryValue < boundaryValueBigInt then none
          else
            match acc.getLast? with
            | some p =>
                if boundaryValueBigInt ≤ p.BoundaryValue then none
                else parseTiersGo conv rest
                  (acc ++ [⟨boundaryValueBigInt, r % 256, 0⟩])
            | none => parseTiersGo conv rest
                (acc ++ [⟨boundaryValueBigInt, r % 256, 0⟩])

/-- The loop of `utils.CalculatePrecomputedValue` (src/unnamed/part_003),
rebuilding the list instead of mutating it in place. -/
def calcPreGo : List TierRatio → Nat → Nat → List TierRatio
  | [], _, _ => []
  | t :: rest, prevBoundary, prevPre =>
      let pre := prevPre +
        (t.BoundaryValue - prevBoundary) * t.Ratio / PercentageMultiplier
      ⟨t.BoundaryValue, t.Ratio, pre⟩ :: calcPreGo rest t.BoundaryValue pre

/-- Mirrors `utils.CalculatePrecomputedValue` (src/unnamed/part_003). -/
def CalculatePrecomputedValue (tiersRatio : List TierRatio) : List TierRatio :=
  calcPreGo tiersRatio 0 0

/-- The three observable outcomes of `ParseTiersRatioFromStr`: a returned
tier table, a returned error, or a panic (from `PaddingTierRatios` when more
than `TierCount` tiers were supplied). -/
inductive TiersParseOutcome where
  | ok (tiers : List TierRatio)
  | err
  | panicked
  deriving Repr, DecidableEq

/-- Mirrors `utils.ParseTiersRatioFromStr` (src/unnamed/part_003). -/
def ParseTiersRatioFromStr (conv : String → Nat → Option Nat)
    (tiersRatioEnc : String) : TiersParseOutcome :=
  let l := goTrim ['[', ']'] tiersRatioEnc.toList
  if l.length = 0 then
    match PaddingTierRatios [] with
    | some res => .ok res
    | none => .panicked
  else
    match parseTiersGo conv (l.splitOn ',') [] with
    | none => .err
    | some tiersRatio =>
        match PaddingTierRatios (CalculatePrecomputedValue tiersRatio) with
        | none => .panicked
        | some res => .ok res

/-- A concrete instance of the float conversion, defined on plain digit
strings (the `decimal` library accepts more shapes; this suffices for the
concrete evaluations below). -/
def decimalDigitsConv (s : String) (multiplier : Nat) : Option Nat :=
  if s.toList ≠ [] ∧ s.toList.all (fun c => c.isDigit) then
    some ((s.toList.foldl (fun acc c => 10 * acc + (c.toNat - 48)) 0) *
      multiplier)
  else none

/-- The raw scaled boundary of entry `i` (0 when the entry does not parse);
used to phrase the first-error condition. -/
def entryBoundaryRaw (conv : String → Nat → Option Nat)
    (entries : List (List Char)) (i : Nat) : Nat :=
  (match parseTierEntry conv (entries.getD i []) with
   | some (_, b, _) => b
   | none => 0) * tierValueMultiplier

/-- Entry `i` fails its checks, the previous boundary for `i = 0` being
`prevB` (the last boundary accumulated before the loop, `none` at the top
call): the entry is malformed, its boundary is strictly below its lower
bound, strictly above `MaxTierBoundaryValue`, or not strictly above the
previous entry's boundary. -/
def entryBadFrom (conv : String → Nat → Option Nat) (prevB : Option Nat)
    (entries : List (List Char)) (i : Nat) : Bool :=
  match parseTierEntry conv (entries.getD i []) with
  | none => true
  | some (low, b, _) =>
      decide (b * tierValueMultiplier < low * tierValueMultiplier) ||
      decide (MaxTierBoundaryValue < b * tierValueMultiplier) ||
      (match (if i = 0 then prevB
              else some (entryBoundaryRaw conv entries (i - 1))) with
       | some pb => decide (b * tierValueMultiplier ≤ pb)
       | none => false)

theorem getD_append_lt {α : Type} [Inhabited α] (l r : List α) (i : Nat)
    (h : i < l.length) : (l ++ r).getD i default = l.getD i default := by
  rw [List.getD_eq_getElem _ _ (by simp; omega), List.getD_eq_getElem _ _ h]
  exact List.getElem_append_left ..

theorem asc_le_getLast :
    ∀ (l : List TierRatio),
      List.Pairwise (fun a b => a.BoundaryValue < b.BoundaryValue) l →
      ∀ p, l.getLast? = some p → ∀ x ∈ l, x.BoundaryValue ≤ p.BoundaryValue := by
  intro l
  induction l with
  | nil => intro _ p hp; simp at hp
  | cons t rest ih =>
      intro hasc p hp x hx
      obtain ⟨ht, hasc'⟩ := List.pairwise_cons.mp hasc
      cases rest with
      | nil =>
          simp only [List.getLast?_singleton, Option.some.injEq] at hp
          rcases List.mem_singleton.mp hx with rfl
          rw [hp]
      | cons u us =>
          rw [List.getLast?_cons_cons] at hp
          have hpmem : p ∈ u :: us := by
            have := List.getLast?_eq_getLast (u :: us) (by simp)
            rw [this] at hp
            injection hp with hp
            rw [← hp]
            exact List.getLast_mem _
          rcases List.mem_cons.mp hx with rfl | hx'
          · exact le_of_lt (ht p hpmem)
          · exact ih hasc' p hp x hx'

theorem parseTiersGo_none_iff (conv : String → Nat → Option Nat) :
    ∀ (entries : List (List Char)) (acc : List TierRatio),
      (parseTiersGo conv entries acc = none ↔
        ∃ i, i < entries.length ∧
          entryBadFrom conv (acc.getLast?.map (fun t => t.BoundaryValue))
            entries i = true) := by
  intro entries
  induction entries with
  | nil =>
      intro acc
      simp [parseTiersGo]
  | cons e rest ih =>
      intro acc
      cases hp : parseTierEntry conv e with
      | none =>
          have hL : parseTiersGo conv (e :: rest) acc = none := by
            simp [parseTiersGo, hp]
          have hR : entryBadFrom conv
              (acc.getLast?.map (fun t => t.BoundaryValue)) (e :: rest) 0 = true := by
            simp [entryBadFrom, hp]
          exact iff_of_true hL ⟨0, Nat.succ_pos _, hR⟩
      | some v =>
          rcases v with ⟨low, b, r⟩
          have hbad0 : entryBadFrom conv
              (acc.getLast?.map (fun t => t.BoundaryValue)) (e :: rest) 0 =
              (decide (b * tierValueMultiplier < low * tierValueMultiplier) ||
               decide (MaxTierBoundaryValue < b * tierValueMultiplier) ||
               (match acc.getLast?.map (fun t => t.BoundaryValue) with
                | some pb => decide (b * tierValueMultiplier ≤ pb)
                | none => false)) := by
            simp [entryBadFrom, hp]
          by_cases hb : entryBadFrom conv
              (acc.getLast?.map (fun t => t.BoundaryValue)) (e :: rest) 0 = true
          · -- the first entry fails: the loop errors
            have hL : parseTiersGo conv (e :: rest) acc = none := by
              rw [hbad0] at hb
              simp only [parseTiersGo, hp]
              by_cases h1 : b * tierValueMultiplier < low * tierValueMultiplier
              · rw [if_pos h1]
              · rw [if_neg h1]
                by_cases h2 : MaxTierBoundaryValue < b * tierValueMultiplier
                · rw [if_pos h2]
                · rw [if_neg h2]
                  rw [decide_eq_false h1, decide_eq_false h2] at hb
                  have hM : (match Option.map (fun t => t.BoundaryValue)
                      acc.getLast? with
                    | some pb => decide (b * tierValueMultiplier ≤ pb)
                    | none => false) = true := by simpa using hb
                  cases hacc : acc.getLast? with
                  | none =>
                      rw [hacc] at hM
                      simp at hM
                  | some p =>
                      rw [hacc] at hM
                      have hle : b * tierValueMultiplier ≤ p.BoundaryValue := by
                        simpa using hM
                      dsimp only
                      rw [if_pos hle]
            exact iff_of_true hL ⟨0, Nat.succ_pos _, hb⟩
          · -- the first entry passes: step into the tail
            rw [hbad0] at hb
            have h1 : ¬ (b * tierValueMultiplier < low * tierValueMultiplier) := by
              intro h; apply hb; simp [h]
            have h2 : ¬ (MaxTierBoundaryValue < b * tierValueMultiplier) := by
              intro h; apply hb; simp [h]
            have hstep : parseTiersGo conv (e :: rest) acc =
                parseTiersGo conv rest
                  (acc ++ [⟨b * tierValueMultiplier, r % 256, 0⟩]) := by
              simp only [parseTiersGo, hp]
              rw [if_neg h1, if_neg h2]
              cases hacc : acc.getLast? with
              | none => rfl
              | some p =>
                  have hple : ¬ (b * tierValueMultiplier ≤ p.BoundaryValue) := by
                    intro h
                    apply hb
                    rw [hacc]
                    simp [h]
                  dsimp only
                  rw [if_neg hple]
            have hlast : (acc ++ [(⟨b * tierValueMultiplier, r % 256, 0⟩ :
                TierRatio)]).getLast?.map (fun t => t.BoundaryValue) =
                some (b * tierValueMultiplier) := by
              rw [List.getLast?_concat]
              rfl
            have hshift : ∀ i, entryBadFrom conv
                (acc.getLast?.map (fun t => t.BoundaryValue)) (e :: rest) (i + 1) =
                entryBadFrom conv (some (b * tierValueMultiplier)) rest i := by
              intro i
              cases i with
              | zero =>
                  simp [entryBadFrom, entryBoundaryRaw, hp]
              | succ k =>
                  simp only [entryBadFrom, entryBoundaryRaw, List.getD_cons_succ,
                    Nat.succ_ne_zero, if_false, Nat.add_sub_cancel,
                    Nat.succ_sub_one, reduceCtorEq]
            rw [hstep, ih, hlast]
            constructor
            · rintro ⟨i, hi, hbadi⟩
              exact ⟨i + 1, Nat.succ_lt_succ hi, by rw [hshift i]; exact hbadi⟩
            · rintro ⟨i, hi, hbadi⟩
              cases i with
              | zero => exact absurd hbadi (by rw [hbad0]; exact hb)
              | succ k =>
                  exact ⟨k, Nat.lt_of_succ_lt_succ hi, by rw [← hshift k]; exact hbadi⟩

theorem parseTiersGo_some_props (conv : String → Nat → Option Nat) :
    ∀ (entries : List (List Char)) (acc out : List TierRatio),
      parseTiersGo conv entries acc = some out →
      List.Pairwise (fun a b => a.BoundaryValue < b.BoundaryValue) acc →
      out.length = acc.length + entries.length
      ∧ List.Pairwise (fun a b => a.BoundaryValue < b.BoundaryValue) out := by
  intro entries
  induction entries with
  | nil =>
      intro acc out heq hasc
      have : acc = out := by simpa [parseTiersGo] using heq
      subst this
      exact ⟨by simp, hasc⟩
  | cons e rest ih =>
      intro acc out heq hasc
      cases hp : parseTierEntry conv e with
      | none => rw [parseTiersGo, hp] at heq; exact absurd heq (by simp)
      | some v =>
          rcases v with ⟨low, b, r⟩
          rw [parseTiersGo, hp] at heq
          dsimp only at heq
          by_cases h1 : b * tierValueMultiplier < low * tierValueMultiplier
          · rw [if_pos h1] at heq; exact absurd heq (by simp)
          rw [if_neg h1] at heq
          by_cases h2 : MaxTierBoundaryValue < b * tierValueMultiplier
          · rw [if_pos h2] at heq; exact absurd heq (by simp)
          rw [if_neg h2] at heq
          have hstep : parseTiersGo conv rest
              (acc ++ [⟨b * tierValueMultiplier, r % 256, 0⟩]) = some out ∧
              (∀ x ∈ acc, x.BoundaryValue < b * tierValueMultiplier) := by
            cases hacc : acc.getLast? with
            | none =>
                rw [hacc] at heq
                have : acc = [] := List.getLast?_eq_none_iff.mp hacc
                exact ⟨heq, by rw [this]; simp⟩
            | some p =>
                rw [hacc] at heq
                dsimp only at heq
                by_cases hple : b * tierValueMultiplier ≤ p.BoundaryValue
                · rw [if_pos hple] at heq; exact absurd heq (by simp)
                · rw [if_neg hple] at heq
                  refine ⟨heq, ?_⟩
                  intro x hx
                  have := asc_le_getLast acc hasc p hacc x hx
                  omega
          have hasc' : List.Pairwise (fun a b => a.BoundaryValue < b.BoundaryValue)
              (acc ++ [⟨b * tierValueMultiplier, r % 256, 0⟩]) := by
            rw [List.pairwise_append]
            exact ⟨hasc, List.pairwise_singleton _ _, by
              intro x hx y hy
              rw [List.mem_singleton.mp hy]
              exact hstep.2 x hx⟩
          obtain ⟨hlen, hasc2⟩ := ih _ out hstep.1 hasc'
          refine ⟨?_, hasc2⟩
          have hlen1 : (acc ++ [(⟨b * tierValueMultiplier, r % 256, 0⟩ :
              TierRatio)]).length = acc.length + 1 := by simp
          rw [hlen, hlen1]
          simp only [List.length_cons]
          omega

theorem calcPreGo_length :
    ∀ (l : List TierRatio) (pb pp : Nat), (calcPreGo l pb pp).length = l.length := by
  intro l
  induction l with
  | nil => intro pb pp; rfl
  | cons t rest ih =>
      intro pb pp
      simp only [calcPreGo, List.length_cons, ih]

theorem calcPreGo_fields :
    ∀ (l : List TierRatio) (pb pp i : Nat),
      ((calcPreGo l pb pp).getD i default).BoundaryValue =
        (l.getD i default).BoundaryValue
      ∧ ((calcPreGo l pb pp).getD i default).Ratio = (l.getD i default).Ratio := by
  intro l
  induction l with
  | nil => intro pb pp i; exact ⟨rfl, rfl⟩
  | cons t rest ih =>
      intro pb pp i
      cases i with
      | zero => exact ⟨rfl, rfl⟩
      | succ k =>
          simp only [calcPreGo, List.getD_cons_succ]
          exact ih t.BoundaryValue _ k

theorem calcPreGo_rec :
    ∀ (l : List TierRatio) (pb pp i : Nat), i < l.length →
      ((calcPreGo l pb pp).getD i default).PrecomputedValue =
        (if i = 0 then pp
         else ((calcPreGo l pb pp).getD (i - 1) default).PrecomputedValue) +
        (((calcPreGo l pb pp).getD i default).BoundaryValue -
          (if i = 0 then pb
           else ((calcPreGo l pb pp).getD (i - 1) default).BoundaryValue)) *
        ((calcPreGo l pb pp).getD i default).Ratio / PercentageMultiplier := by
  intro l
  induction l with
  | nil => intro pb pp i hi; exact absurd hi (by simp)
  | cons t rest ih =>
      intro pb pp i hi
      cases i with
      | zero => rfl
      | succ k =>
          have hk : k < rest.length := by simpa using hi
          have := ih t.BoundaryValue
            (pp + (t.BoundaryValue - pb) * t.Ratio / PercentageMultiplier) k hk
          cases k with
          | zero =>
              simpa only [calcPreGo, List.getD_cons_succ, List.getD_cons_zero,
                Nat.succ_ne_zero, if_false, Nat.succ_sub_one, if_pos rfl,
                reduceCtorEq] using this
          | succ m =>
              simpa only [calcPreGo, List.getD_cons_succ, Nat.succ_ne_zero,
                if_false, Nat.succ_sub_one, reduceCtorEq] using this

theorem asc_getD_of_pairwise (l : List TierRatio)
    (h : List.Pairwise (fun a b => a.BoundaryValue < b.BoundaryValue) l)
    (i j : Nat) (hij : i < j) (hj : j < l.length) :
    (l.getD i default).BoundaryValue < (l.getD j default).BoundaryValue := by
  have hi : i < l.length := Nat.lt_trans hij hj
  rw [List.getD_eq_getElem _ _ hi, List.getD_eq_getElem _ _ hj]
  exact List.pairwise_iff_getElem.mp h i j hi hj hij

theorem pairwise_of_asc_getD (l : List TierRatio)
    (h : ∀ i j, i < j → j < l.length →
      (l.getD i default).BoundaryValue < (l.getD j default).BoundaryValue) :
    List.Pairwise (fun a b => a.BoundaryValue < b.BoundaryValue) l := by
  rw [List.pairwise_iff_getElem]
  intro i j hi hj hij
  have := h i j hij hj
  rwa [List.getD_eq_getElem _ _ hi, List.getD_eq_getElem _ _ hj] at this

/-- C7 counterexample: the entry `5-5:80` parses with boundary equal to its
lower bound — so the boundary is not strictly greater than its lower bound —
yet `ParseTiersRatioFromStr` accepts the string (the code only rejects a
boundary strictly below its lower bound), contradicting the claim that such
an input yields an error. -/
theorem parseTiersRatio_lowBound_counterexample :
    parseTierEntry decimalDigitsConv ("5-5:80".toList) = some (5, 5, 80)
    ∧ ¬ (5 * tierValueMultiplier > 5 * tierValueMultiplier)
    ∧ ParseTiersRatioFromStr decimalDigitsConv "[5-5:80]" ≠
        TiersParseOutcome.err := by
  refine ⟨by decide, by decide, by decide⟩

/-- C7 (amended): parsing a tier-ratio string returns an error exactly when
some entry fails its checks — the entry is malformed, its boundary is
strictly below its parsed lower bound, its boundary exceeds
`MaxTierBoundaryValue`, or its boundary is not strictly greater than the
previous entry's boundary (equality with the lower bound is accepted); more
than `TierCount` valid entries panic instead of erroring.  On success the
result has exactly 12 entries whose real prefix keeps strictly ascending
boundaries and satisfies
`precomputed[i] = precomputed[i-1] + (boundary[i] - boundary[i-1]) * ratio[i] / 100`,
every padding entry being the sentinel
`{MaxTierBoundaryValue, 0, last real precomputed value}`. -/
theorem parseTiersRatioFromStr_spec (conv : String → Nat → Option Nat)
    (s : String) :
    (goTrim ['[', ']'] s.toList = [] →
      ParseTiersRatioFromStr conv s =
        .ok (List.replicate TierCount ⟨MaxTierBoundaryValue, 0, 0⟩))
    ∧ (ParseTiersRatioFromStr conv s = .err ↔
        goTrim ['[', ']'] s.toList ≠ [] ∧
        ∃ i, i < ((goTrim ['[', ']'] s.toList).splitOn ',').length ∧
          entryBadFrom conv none
            ((goTrim ['[', ']'] s.toList).splitOn ',') i = true)
    ∧ (∀ res, ParseTiersRatioFromStr conv s = .ok res →
        res.length = TierCount
        ∧ ∃ n, n ≤ TierCount
          ∧ List.Pairwise (fun a b => a.BoundaryValue < b.BoundaryValue)
              (res.take n)
          ∧ (∀ i, i < n →
              (res.getD i default).PrecomputedValue =
                (if i = 0 then 0
                 else (res.getD (i - 1) default).PrecomputedValue) +
                ((res.getD i default).BoundaryValue -
                  (if i = 0 then 0
                   else (res.getD (i - 1) default).BoundaryValue)) *
                (res.getD i default).Ratio / PercentageMultiplier)
          ∧ (∀ e ∈ res.drop n,
              e = ⟨MaxTierBoundaryValue, 0,
                if n = 0 then 0
                else (res.getD (n - 1) default).PrecomputedValue⟩)) := by
  by_cases ht : goTrim ['[', ']'] s.toList = []
  · -- empty after trimming: the sentinel table is returned, never an error
    have hout : ParseTiersRatioFromStr conv s =
        .ok (List.replicate TierCount ⟨MaxTierBoundaryValue, 0, 0⟩) := by
      unfold ParseTiersRatioFromStr
      rw [ht]
      rfl
    refine ⟨fun _ => hout, ?_, ?_⟩
    · rw [hout]
      constructor
      · intro h; exact absurd h (by simp)
      · rintro ⟨hne, _⟩; exact absurd ht hne
    · intro res hres
      rw [hout] at hres
      injection hres with hres
      subst hres
      refine ⟨by simp [TierCount], 0, Nat.zero_le _, by simp, by simp, ?_⟩
      intro e he
      simp only [List.drop_zero] at he
      simpa using List.eq_of_mem_replicate he
  · -- non-empty: run the entry loop
    have hlen0 : ¬ ((goTrim ['[', ']'] s.toList).length = 0) := by
      intro h
      exact ht (List.length_eq_zero.mp h)
    cases hpg : parseTiersGo conv ((goTrim ['[', ']'] s.toList).splitOn ',') []
      with
    | none =>
        have hout : ParseTiersRatioFromStr conv s = .err := by
          unfold ParseTiersRatioFromStr
          rw [if_neg hlen0, hpg]
        have hex := (parseTiersGo_none_iff conv _ []).mp hpg
        refine ⟨fun h => absurd h ht, ?_, ?_⟩
        · rw [hout]
          simp only [true_iff]
          exact ⟨ht, by simpa using hex⟩
        · intro res hres
          rw [hout] at hres
          exact absurd hres (by simp)
    | some parsed =>
        obtain ⟨hplen, hpasc⟩ :=
          parseTiersGo_some_props conv _ [] parsed hpg (by simp)
        have hnoerr : ParseTiersRatioFromStr conv s ≠ .err := by
          unfold ParseTiersRatioFromStr
          rw [if_neg hlen0, hpg]
          dsimp only
          cases hpt : PaddingTierRatios (CalculatePrecomputedValue parsed) with
          | none => simp
          | some r => simp
        refine ⟨fun h => absurd h ht, ?_, ?_⟩
        · constructor
          · intro h; exact absurd h hnoerr
          · rintro ⟨_, i, hi, hbad⟩
            have : parseTiersGo conv
                ((goTrim ['[', ']'] s.toList).splitOn ',') [] = none :=
              (parseTiersGo_none_iff conv _ []).mpr ⟨i, hi, by simpa using hbad⟩
            rw [hpg] at this
            exact absurd this (by simp)
        · intro res hres
          unfold ParseTiersRatioFromStr at hres
          rw [if_neg hlen0, hpg] at hres
          dsimp only at hres
          rw [show CalculatePrecomputedValue parsed = calcPreGo parsed 0 0
            from rfl] at hres
          set full := calcPreGo parsed 0 0 with hfull
          cases hpad : PaddingTierRatios full with
          | none => rw [hpad] at hres; exact absurd hres (by simp)
          | some res' =>
              rw [hpad] at hres
              injection hres with hres
              subst hres
              -- unpack the padding
              have hngt : ¬ (full.length > TierCount) := by
                intro hgt
                unfold PaddingTierRatios at hpad
                rw [if_pos hgt] at hpad
                exact absurd hpad (by simp)
              have hpad' : res' = full ++
                  List.replicate (TierCount - full.length)
                    ⟨MaxTierBoundaryValue, 0,
                      match full.getLast? with
                      | some t => t.PrecomputedValue
                      | none => 0⟩ := by
                unfold PaddingTierRatios at hpad
                rw [if_neg hngt] at hpad
                injection hpad with hpad
                exact hpad.symm
              have hfull_len : full.length = parsed.length :=
                calcPreGo_length parsed 0 0
              have hfull_asc : List.Pairwise
                  (fun a b => a.BoundaryValue < b.BoundaryValue) full := by
                refine pairwise_of_asc_getD full ?_
                intro i j hij hj
                rw [hfull, (calcPreGo_fields parsed 0 0 i).1,
                  (calcPreGo_fields parsed 0 0 j).1]
                refine asc_getD_of_pairwise parsed hpasc i j hij ?_
                rw [← hfull_len]
                exact hj
              have hreslen : res'.length = TierCount := by
                rw [hpad']
                simp only [List.length_append, List.length_replicate]
                omega
              refine ⟨hreslen, full.length, by omega, ?_, ?_, ?_⟩
              · rw [hpad', List.take_left]
                exact hfull_asc
              · intro i hi
                have hgetD : ∀ k, k < full.length →
                    res'.getD k default = full.getD k default := by
                  intro k hk
                  rw [hpad']
                  exact getD_append_lt full _ k hk
                rw [hgetD i hi]
                by_cases hi0 : i = 0
                · subst hi0
                  rw [hfull]
                  simpa using calcPreGo_rec parsed 0 0 0 (by omega)
                · have hrec := calcPreGo_rec parsed 0 0 i (by omega)
                  simp only [if_neg hi0] at hrec
                  simp only [if_neg hi0]
                  rw [hgetD (i - 1) (by omega), hfull]
                  exact hrec
              · intro e he
                rw [hpad', List.drop_left] at he
                have := List.eq_of_mem_replicate he
                rw [this]
                by_cases h0 : full.length = 0
                · have : full = [] := List.length_eq_zero.mp h0
                  rw [if_pos h0, this]
                  rfl
                · rw [if_neg h0]
                  have hne : full ≠ [] := by
                    intro h; rw [h] at h0; exact h0 rfl
                  have hlast := List.getLast?_eq_getElem? full
                  have hsome : full[full.length - 1]? =
                      some (full.getLast hne) := by
                    rw [← hlast, List.getLast?_eq_getLast full hne]
                  have hgd : res'.getD (full.length - 1) default =
                      full.getLast hne := by
                    rw [hpad', getD_append_lt full _ _ (by omega),
                      List.getD_eq_getElem?_getD, hsome]
                    rfl
                  rw [hgd, List.getLast?_eq_getLast full hne]

theorem parseTiersRatioFromStr_spec_witness :
    ParseTiersRatioFromStr decimalDigitsConv "[1-3:80, 3-7:50]" ≠
      TiersParseOutcome.err := by
  intro he
  exact absurd ((parseTiersRatioFromStr_spec decimalDigitsConv
    "[1-3:80, 3-7:50]").2.1.mp he) (by decide)

/-! ## C8: ReadUserDataFromCsvFile / ParseUserDataSet (src/unnamed/part_003)

CSV files are modelled as lists of rows (lists of field strings), the first
row being the header.  `ConvertFloatStrToUint64` is again the abstract
`conv` parameter. -/

/-- Mirrors `utils.AssetTypeForTwoDigits` (src/src/utils/constants.go). -/
def AssetTypeForTwoDigits (s : String) : Bool :=
  ["BTTC", "bttc", "SHIB", "shib", "LUNC", "lunc", "XEC", "xec", "WIN", "win",
   "BIDR", "bidr", "SPELL", "spell", "HOT", "hot", "DOGE", "doge", "PEPE",
   "pepe", "FLOKI", "floki", "IDRT", "idrt", "DOGS", "dogs", "BONK", "bonk",
   "1000SATS", "1000sats", "NEIRO", "neiro", "1000PEPPER", "1000pepper",
   "NOT", "not", "NFT", "nft", "BOME", "bome", "1MBABYDOGE",
   "1mbabydoge"].contains s

/-- Mirrors `utils.SafeAdd` (src/unnamed/part_003): `uint64` addition that
panics (`none`) on wrap-around. -/
def SafeAdd (a b : Nat) : Option Nat :=
  let c := (a + b) % 2 ^ 64
  if c < a then none else some c

/-- Mirrors `utils.CalculateAssetValueForCollateral` (src/unnamed/part_003):
haircut each collateral leg at `amount * basePrice` through its tier table
and sum the three values. -/
def CalculateAssetValueForCollateral (loan margin portfolioMargin : Nat)
    (cexAssetInfo : CexAssetInfo) : Nat :=
  (CalculateAssetValueViaTiersRatio (loan * cexAssetInfo.BasePrice)
    cexAssetInfo.LoanRatios).1 +
  (CalculateAssetValueViaTiersRatio (margin * cexAssetInfo.BasePrice)
    cexAssetInfo.MarginRatios).1 +
  (CalculateAssetValueViaTiersRatio (portfolioMargin * cexAssetInfo.BasePrice)
    cexAssetInfo.PortfolioMarginRatios).1

/-- One hexadecimal digit, as accepted by Go `encoding/hex`. -/
def hexDigit? (c : Char) : Option Nat :=
  if '0' ≤ c ∧ c ≤ '9' then some (c.toNat - 48)
  else if 'a' ≤ c ∧ c ≤ 'f' then some (c.toNat - 87)
  else if 'A' ≤ c ∧ c ≤ 'F' then some (c.toNat - 55)
  else none

/-- Go `hex.DecodeString` on a character list: pairs of hex digits become
bytes; odd length or a non-hex character is an error. -/
def hexDecodeList : List Char → Option (List Nat)
  | [] => some []
  | [_] => none
  | c1 :: c2 :: rest =>
      match hexDigit? c1, hexDigit? c2, hexDecodeList rest with
      | some h, some lo, some bs => some ((16 * h + lo) :: bs)
      | _, _, _ => none

def hexDecode (s : String) : Option (List Nat) :=
  hexDecodeList s.toList

/-- The outcome of processing one user CSV row: a panic (invalid account id
or `SafeAdd` overflow), an invalid row (counted and skipped), or the parsed
per-account data. -/
inductive RowOutcome where
  | panicked
  | invalid
  | valid (assets : List AccountAsset)
      (totalEquity totalDebt totalCollateral : Nat)

/-- The per-asset loop of `ReadUserDataFromCsvFile` over columns
`j*6+2 .. j*6+7` (the Go code appends the asset before the per-asset
collateral check; an invalid row discards the account either way). -/
def processAssets (conv : String → Nat → Option Nat)
    (cexAssetsInfo : List CexAssetInfo) (row : List String) :
    Nat → Nat → List AccountAsset → Nat → Nat → Nat → RowOutcome
  | 0, _, assets, te, td, tc => .valid assets te td tc
  | rem + 1, j, assets, te, td, tc =>
      let cexJ := cexAssetsInfo.getD j default
      let multiplier := if AssetTypeForTwoDigits cexJ.Symbol
        then 100 else 100000000
      match conv (row.getD (j * 6 + 2) "") multiplier with
      | none => .invalid
      | some equity =>
      match conv (row.getD (j * 6 + 3) "") multiplier with
      | none => .invalid
      | some debt =>
      match conv (row.getD (j * 6 + 5) "") multiplier with
      | none => .invalid
      | some loan =>
      match conv (row.getD (j * 6 + 6) "") multiplier with
      | none => .invalid
      | some margin =>
      match conv (row.getD (j * 6 + 7) "") multiplier with
      | none => .invalid
      | some portfolioMargin =>
          if equity ≠ 0 ∨ debt ≠ 0 then
            match SafeAdd loan margin with
            | none => .panicked
            | some s1 =>
            match SafeAdd s1 portfolioMargin with
            | none => .panicked
            | some assetTotalCollateral =>
                if equity < assetTotalCollateral then .invalid
                else processAssets conv cexAssetsInfo row rem (j + 1)
                  (assets ++ [⟨j, equity, debt, loan, margin, portfolioMargin⟩])
                  (te + equity * cexJ.BasePrice)
                  (td + debt * cexJ.BasePrice)
                  (tc + CalculateAssetValueForCollateral loan margin
                    portfolioMargin cexJ)
          else processAssets conv cexAssetsInfo row rem (j + 1) assets te td tc

/-- Processing of one data row of `ReadUserDataFromCsvFile`: decode the
account id (panic on a non-hex or non-32-byte id), then run the asset
loop. -/
def processUserRow (conv : String → Nat → Option Nat)
    (cexAssetsInfo : List CexAssetInfo) (assetCounts : Nat)
    (row : List String) : RowOutcome :=
  match hexDecode (row.getD 1 "") with
  | none => .panicked
  | some accountId =>
      if accountId.length ≠ 32 then .panicked
      else processAssets conv cexAssetsInfo row assetCounts 0 [] 0 0 0

/-- Mirrors `utils.AccountInfo` (src/src/utils/types.go); the `AccountId`
field (a BN254 field element) plays no role in the claims and is omitted. -/
structure AccountInfo where
  AccountIndex : Nat
  TotalEquity : Nat
  TotalDebt : Nat
  TotalCollateral : Nat
  Assets : List AccountAsset
  deriving Repr, DecidableEq, Inhabited

/-- Append an account to its tier bucket: the first tier of
`AssetCountsTiers` that fits the account's asset count (an account fitting no
tier is dropped, as in the Go loop). -/
def addAccountToGroups (groups : Nat → List AccountInfo) (a : AccountInfo) :
    Nat → List AccountInfo :=
  match AssetCountsTiers.find? (fun t => a.Assets.length ≤ t) with
  | some key => fun t => if t = key then groups t ++ [a] else groups t
  | none => groups

inductive ReadOutcome where
  | panicked
  | ok (groups : Nat → List AccountInfo) (invalidCounts : Nat)

/-- The row loop of `ReadUserDataFromCsvFile`: panic aborts, an invalid row
bumps the counter, a valid row with `totalCollateral >= totalDebt` is
assigned the next account index and grouped, otherwise it is counted
invalid. -/
def readUserRows (conv : String → Nat → Option Nat)
    (cexAssetsInfo : List CexAssetInfo) (assetCounts : Nat) :
    List (List String) → Nat → (Nat → List AccountInfo) → Nat → ReadOutcome
  | [], _, groups, invalid => .ok groups invalid
  | row :: rest, accountIndex, groups, invalid =>
      match processUserRow conv cexAssetsInfo assetCounts row with
      | .panicked => .panicked
      | .invalid =>
          readUserRows conv cexAssetsInfo assetCounts rest accountIndex
            groups (invalid + 1)
      | .valid assets te td tc =>
          if td ≤ tc then
            readUserRows conv cexAssetsInfo assetCounts rest (accountIndex + 1)
              (addAccountToGroups groups ⟨accountIndex, te, td, tc, assets⟩)
              invalid
          else
            readUserRows conv cexAssetsInfo assetCounts rest accountIndex
              groups (invalid + 1)

/-- Mirrors `utils.ReadUserDataFromCsvFile` (src/unnamed/part_003): the
asset count comes from the header width `(len - 3) / 6`; the data rows
follow the header. -/
def ReadUserDataFromCsvFile (conv : String → Nat → Option Nat)
    (cexAssetsInfo : List CexAssetInfo) (data : List (List String)) :
    ReadOutcome :=
  readUserRows conv cexAssetsInfo (((data.headD []).length - 3) / 6)
    data.tail 0 (fun _ => []) 0

inductive ParseOutcome where
  | panicked
  | ok (isError : Bool) (totalInvalid : Nat)
  deriving Repr, DecidableEq

/-- The aggregation loop of `ParseUserDataSet` (src/unnamed/part_003): sum
the per-file invalid counts (a worker panics when a file fails) and finally
return an error exactly when the total is positive. -/
def parseUserDataSetLoop (conv : String → Nat → Option Nat)
    (cexAssetsInfo : List CexAssetInfo) :
    List (List (List String)) → Nat → ParseOutcome
  | [], totalInvalid => .ok (decide (0 < totalInvalid)) totalInvalid
  | file :: rest, totalInvalid =>
      match ReadUserDataFromCsvFile conv cexAssetsInfo file with
      | .panicked => .panicked
      | .ok _ invalid =>
          parseUserDataSetLoop conv cexAssetsInfo rest (totalInvalid + invalid)

/-- Mirrors the outcome of `utils.ParseUserDataSet` (src/unnamed/part_003)
on a list of already-read user files. -/
def ParseUserDataSet (conv : String → Nat → Option Nat)
    (cexAssetsInfo : List CexAssetInfo) (files : List (List (List String))) :
    ParseOutcome :=
  parseUserDataSetLoop conv cexAssetsInfo files 0

/-- A row counted invalid by the loop: it fails to parse, a per-asset check
fails, or its total collateral is below its total debt. -/
def rowInvalid (conv : String → Nat → Option Nat)
    (cexAssetsInfo : List CexAssetInfo) (assetCounts : Nat)
    (row : List String) : Bool :=
  match processUserRow conv cexAssetsInfo assetCounts row with
  | .invalid => true
  | .panicked => false
  | .valid _ _ td tc => decide (tc < td)

theorem readUserRows_panicked_iff (conv : String → Nat → Option Nat)
    (cexAssetsInfo : List CexAssetInfo) (assetCounts : Nat) :
    ∀ (rows : List (List String)) (idx : Nat)
      (groups : Nat → List AccountInfo) (invalid : Nat),
      readUserRows conv cexAssetsInfo assetCounts rows idx groups invalid =
          .panicked ↔
        ∃ row ∈ rows,
          processUserRow conv cexAssetsInfo assetCounts row = .panicked := by
  intro rows
  induction rows with
  | nil => intro idx groups invalid; simp [readUserRows]
  | cons row rest ih =>
      intro idx groups invalid
      cases hrow : processUserRow conv cexAssetsInfo assetCounts row with
      | panicked =>
          have : readUserRows conv cexAssetsInfo assetCounts (row :: rest) idx
              groups invalid = .panicked := by
            rw [readUserRows, hrow]
          exact iff_of_true this ⟨row, List.mem_cons_self _ _, hrow⟩
      | invalid =>
          rw [readUserRows, hrow, ih]
          constructor
          · rintro ⟨r, hr, hp⟩
            exact ⟨r, List.mem_cons_of_mem _ hr, hp⟩
          · rintro ⟨r, hr, hp⟩
            rcases List.mem_cons.mp hr with rfl | hr
            · rw [hrow] at hp; exact absurd hp (by simp)
            · exact ⟨r, hr, hp⟩
      | valid assets te td tc =>
          rw [readUserRows, hrow]
          dsimp only
          by_cases hc : td ≤ tc
          · rw [if_pos hc, ih]
            constructor
            · rintro ⟨r, hr, hp⟩
              exact ⟨r, List.mem_cons_of_mem _ hr, hp⟩
            · rintro ⟨r, hr, hp⟩
              rcases List.mem_cons.mp hr with rfl | hr
              · rw [hrow] at hp; exact absurd hp (by simp)
              · exact ⟨r, hr, hp⟩
          · rw [if_neg hc, ih]
            constructor
            · rintro ⟨r, hr, hp⟩
              exact ⟨r, List.mem_cons_of_mem _ hr, hp⟩
            · rintro ⟨r, hr, hp⟩
              rcases List.mem_cons.mp hr with rfl | hr
              · rw [hrow] at hp; exact absurd hp (by simp)
              · exact ⟨r, hr, hp⟩

theorem mem_addAccountToGroups (groups : Nat → List AccountInfo)
    (acct : AccountInfo) (t : Nat) (a : AccountInfo)
    (h : a ∈ addAccountToGroups groups acct t) :
    a ∈ groups t ∨ a = acct := by
  unfold addAccountToGroups at h
  cases hf : AssetCountsTiers.find? (fun t => acct.Assets.length ≤ t) with
  | none => rw [hf] at h; exact Or.inl h
  | some key =>
      rw [hf] at h
      dsimp only at h
      by_cases hk : t = key
      · rw [if_pos hk] at h
        rcases List.mem_append.mp h with h | h
        · exact Or.inl h
        · exact Or.inr (List.mem_singleton.mp h)
      · rw [if_neg hk] at h
        exact Or.inl h

theorem readUserRows_ok (conv : String → Nat → Option Nat)
    (cexAssetsInfo : List CexAssetInfo) (assetCounts : Nat) :
    ∀ (rows : List (List String)) (idx : Nat)
      (groups : Nat → List AccountInfo) (invalid : Nat)
      (outGroups : Nat → List AccountInfo) (outInvalid : Nat),
      readUserRows conv cexAssetsInfo assetCounts rows idx groups invalid =
          .ok outGroups outInvalid →
      outInvalid = invalid +
        (rows.filter (rowInvalid conv cexAssetsInfo assetCounts)).length
      ∧ ∀ t a, a ∈ outGroups t → a ∈ groups t ∨
          ∃ row ∈ rows, ∃ te td tc,
            processUserRow conv cexAssetsInfo assetCounts row =
              .valid a.Assets te td tc ∧ td ≤ tc := by
  intro rows
  induction rows with
  | nil =>
      intro idx groups invalid outGroups outInvalid heq
      rw [readUserRows] at heq
      injection heq with h1 h2
      subst h1 h2
      exact ⟨by simp, fun t a ha => Or.inl ha⟩
  | cons row rest ih =>
      intro idx groups invalid outGroups outInvalid heq
      cases hrow : processUserRow conv cexAssetsInfo assetCounts row with
      | panicked =>
          rw [readUserRows, hrow] at heq
          exact absurd heq (by simp)
      | invalid =>
          rw [readUserRows, hrow] at heq
          obtain ⟨hlen, hmem⟩ := ih _ _ _ _ _ heq
          have hfil : rowInvalid conv cexAssetsInfo assetCounts row = true := by
            unfold rowInvalid; rw [hrow]
          constructor
          · rw [hlen, List.filter_cons_of_pos hfil]
            simp only [List.length_cons]
            omega
          · intro t a ha
            rcases hmem t a ha with h | ⟨r, hr, h⟩
            · exact Or.inl h
            · exact Or.inr ⟨r, List.mem_cons_of_mem _ hr, h⟩
      | valid assets te td tc =>
          rw [readUserRows, hrow] at heq
          dsimp only at heq
          by_cases hc : td ≤ tc
          · rw [if_pos hc] at heq
            obtain ⟨hlen, hmem⟩ := ih _ _ _ _ _ heq
            have hfil : rowInvalid conv cexAssetsInfo assetCounts row = false := by
              unfold rowInvalid
              rw [hrow]
              dsimp only
              simp only [decide_eq_false_iff_not]
              omega
            constructor
            · rw [hlen, List.filter_cons_of_neg (by simp [hfil])]
            · intro t a ha
              rcases hmem t a ha with h | ⟨r, hr, h⟩
              · rcases mem_addAccountToGroups _ _ _ _ h with h | rfl
                · exact Or.inl h
                · exact Or.inr ⟨row, List.mem_cons_self _ _, te, td, tc,
                    hrow, hc⟩
              · exact Or.inr ⟨r, List.mem_cons_of_mem _ hr, h⟩
          · rw [if_neg hc] at heq
            obtain ⟨hlen, hmem⟩ := ih _ _ _ _ _ heq
            have hfil : rowInvalid conv cexAssetsInfo assetCounts row = true := by
              unfold rowInvalid
              rw [hrow]
              dsimp only
              simp only [decide_eq_true_eq]
              omega
            constructor
            · rw [hlen, List.filter_cons_of_pos hfil]
              simp only [List.length_cons]
              omega
            · intro t a ha
              rcases hmem t a ha with h | ⟨r, hr, h⟩
              · exact Or.inl h
              · exact Or.inr ⟨r, List.mem_cons_of_mem _ hr, h⟩

/-- The per-file invalid-row count. -/
def fileInvalidCount (conv : String → Nat → Option Nat)
    (cexAssetsInfo : List CexAssetInfo) (file : List (List String)) : Nat :=
  (file.tail.filter
    (rowInvalid conv cexAssetsInfo (((file.headD []).length - 3) / 6))).length

theorem parseUserDataSetLoop_spec (conv : String → Nat → Option Nat)
    (cexAssetsInfo : List CexAssetInfo) :
    ∀ (files : List (List (List String))) (acc : Nat),
      (parseUserDataSetLoop conv cexAssetsInfo files acc = .panicked ↔
        ∃ file ∈ files,
          ReadUserDataFromCsvFile conv cexAssetsInfo file = .panicked)
      ∧ (∀ isErr total,
          parseUserDataSetLoop conv cexAssetsInfo files acc = .ok isErr total →
          total = acc +
            (files.map (fileInvalidCount conv cexAssetsInfo)).sum
          ∧ (isErr = true ↔ 0 < total)) := by
  intro files
  induction files with
  | nil =>
      intro acc
      refine ⟨by simp [parseUserDataSetLoop], ?_⟩
      intro isErr total heq
      rw [parseUserDataSetLoop] at heq
      injection heq with h1 h2
      subst h2
      constructor
      · simp
      · rw [← h1]
        simp
  | cons file rest ih =>
      intro acc
      cases hf : ReadUserDataFromCsvFile conv cexAssetsInfo file with
      | panicked =>
          have hloop : parseUserDataSetLoop conv cexAssetsInfo (file :: rest)
              acc = .panicked := by
            rw [parseUserDataSetLoop, hf]
          refine ⟨iff_of_true hloop ⟨file, List.mem_cons_self _ _, hf⟩, ?_⟩
          intro isErr total heq
          rw [hloop] at heq
          exact absurd heq (by simp)
      | ok groups invalid =>
          have hloop : parseUserDataSetLoop conv cexAssetsInfo (file :: rest)
              acc = parseUserDataSetLoop conv cexAssetsInfo rest
                (acc + invalid) := by
            rw [parseUserDataSetLoop, hf]
          have hinv : invalid = fileInvalidCount conv cexAssetsInfo file := by
            have := (readUserRows_ok conv cexAssetsInfo
              (((file.headD []).length - 3) / 6) file.tail 0 (fun _ => []) 0
              groups invalid hf).1
            simpa [fileInvalidCount] using this
          constructor
          · rw [hloop, (ih (acc + invalid)).1]
            constructor
            · rintro ⟨f, hfm, hp⟩
              exact ⟨f, List.mem_cons_of_mem _ hfm, hp⟩
            · rintro ⟨f, hfm, hp⟩
              rcases List.mem_cons.mp hfm with rfl | hfm
              · rw [hf] at hp; exact absurd hp (by simp)
              · exact ⟨f, hfm, hp⟩
          · intro isErr total heq
            rw [hloop] at heq
            obtain ⟨htot, herr⟩ := (ih (acc + invalid)).2 isErr total heq
            refine ⟨?_, herr⟩
            rw [htot, hinv]
            simp only [List.map_cons, List.sum_cons]
            omega

/-- A 64-character hex account id (32 zero bytes). -/
def c8Id : String :=
  "0000000000000000000000000000000000000000000000000000000000000000"

def c8Header : List String :=
  ["rn", "id", "eq", "debt", "name", "loan", "margin", "pm", "net"]

def c8ValidRow : List String :=
  ["0", c8Id, "5", "1", "btc", "1", "1", "1", "0"]

def c8InvalidRow : List String :=
  ["1", c8Id, "x", "1", "btc", "1", "1", "1", "0"]

def c8BadIdRow : List String :=
  ["2", "zz", "5", "1", "btc", "1", "1", "1", "0"]

def c8Files : List (List (List String)) :=
  [[c8Header, c8ValidRow, c8InvalidRow]]

/-- C8 counterexample: a row whose account id is not valid hex is not
counted and skipped — `ReadUserDataFromCsvFile` panics on it instead of
returning with an incremented invalid count. -/
theorem readUserData_badId_counterexample :
    ReadUserDataFromCsvFile decimalDigitsConv [reservedCexAsset 0]
      [c8Header, c8BadIdRow] = ReadOutcome.panicked
    ∧ processUserRow decimalDigitsConv [reservedCexAsset 0] 1 c8BadIdRow =
        RowOutcome.panicked := ⟨rfl, rfl⟩

/-- C8 (amended): a row with a malformed or overflowing amount, a per-asset
collateral sum exceeding its equity, or total collateral below total debt is
counted and skipped, so every account in a tier group comes from a row that
parsed as valid and solvent; a non-hex or wrong-length account id (or a
`SafeAdd` overflow) instead panics, aborting the whole read; and at end of
input `ParseUserDataSet` returns an error exactly when the total invalid
count over all files is positive. -/
theorem readUserDataSpec (conv : String → Nat → Option Nat)
    (cexAssetsInfo : List CexAssetInfo) :
    (∀ data : List (List String),
      ReadUserDataFromCsvFile conv cexAssetsInfo data = .panicked ↔
        ∃ row ∈ data.tail,
          processUserRow conv cexAssetsInfo (((data.headD []).length - 3) / 6)
            row = .panicked)
    ∧ (∀ data groups invalid,
        ReadUserDataFromCsvFile conv cexAssetsInfo data = .ok groups invalid →
        invalid = (data.tail.filter
          (rowInvalid conv cexAssetsInfo
            (((data.headD []).length - 3) / 6))).length
        ∧ ∀ t a, a ∈ groups t → ∃ row ∈ data.tail, ∃ te td tc,
            processUserRow conv cexAssetsInfo
              (((data.headD []).length - 3) / 6) row =
              .valid a.Assets te td tc ∧ td ≤ tc)
    ∧ (∀ files,
        (ParseUserDataSet conv cexAssetsInfo files = .panicked ↔
          ∃ file ∈ files,
            ReadUserDataFromCsvFile conv cexAssetsInfo file = .panicked)
        ∧ ∀ isErr total,
            ParseUserDataSet conv cexAssetsInfo files = .ok isErr total →
            total = (files.map (fileInvalidCount conv cexAssetsInfo)).sum
            ∧ (isErr = true ↔ 0 < total)) := by
  refine ⟨?_, ?_, ?_⟩
  · intro data
    exact readUserRows_panicked_iff conv cexAssetsInfo _ data.tail 0
      (fun _ => []) 0
  · intro data groups invalid heq
    obtain ⟨hlen, hmem⟩ := readUserRows_ok conv cexAssetsInfo _ data.tail 0
      (fun _ => []) 0 groups invalid heq
    refine ⟨by simpa using hlen, ?_⟩
    intro t a ha
    rcases hmem t a ha with h | h
    · exact absurd h (by simp)
    · exact h
  · intro files
    have h := parseUserDataSetLoop_spec conv cexAssetsInfo files 0
    refine ⟨h.1, ?_⟩
    intro isErr total heq
    obtain ⟨htot, herr⟩ := h.2 isErr total heq
    exact ⟨by simpa using htot, herr⟩

theorem readUserDataSpec_witness :
    (c8Files.map (fileInvalidCount decimalDigitsConv
      [reservedCexAsset 0])).sum = 1
    ∧ (true = true ↔ 0 < 1) := by
  have h := ((readUserDataSpec decimalDigitsConv
    [reservedCexAsset 0]).2.2 c8Files).2 true 1 (by rfl)
  exact ⟨h.1.symm, h.2⟩

end ZkPoS
